import Mathlib

/-!
Verification of the record-linkage engine of `patient_data_research.py`.

The Python source is shallowly embedded:
* `normalize_name`, `normalize_gender`, `soundex` become pure Lean functions
  on `Option String` / `String` (ASCII model of Python's `\w`, `\s`,
  `str.lower`).
* the `DSU` class becomes a `DSU` structure over `List Nat` with explicit
  state passing; `find` (with path halving) is fuel-bounded by the number of
  elements, which we prove sufficient under the forest invariant.
* `detect_duplicates` is embedded with the external `rapidfuzz`
  `partial_ratio` scorer abstracted as a parameter `score` (the claims under
  verification are independent of the concrete scores), and pandas
  `to_datetime` date parsing abstracted as a parameter `parseD` returning
  `Option String` (ISO date or `none` for `NaT`).
* pandas nullable-`Int64` columns become `List Int`; the cluster-id column is
  a `List Int` whose value is `-1` exactly where the Python list keeps its
  `-1` initializer.
-/

/-! ### List getD helpers -/

theorem getD_oob {α : Type} {l : List α} {a : Nat} (d : α) (h : l.length ≤ a) :
    l.getD a d = d := by
  induction l generalizing a with
  | nil => simp [List.getD]
  | cons x xs ih =>
    cases a with
    | zero => simp at h
    | succ a =>
      simp only [List.length_cons, Nat.succ_le_succ_iff] at h
      simpa [List.getD] using ih h

theorem getD_cons_zero {α : Type} {x : α} {xs : List α} {d : α} :
    (x :: xs).getD 0 d = x := rfl

theorem getD_cons_succ {α : Type} {x : α} {xs : List α} {a : Nat} {d : α} :
    (x :: xs).getD (a + 1) d = xs.getD a d := rfl

theorem getD_set_self {α : Type} {l : List α} {a : Nat} {v d : α}
    (h : a < l.length) :
    (l.set a v).getD a d = v := by
  induction l generalizing a with
  | nil => simp at h
  | cons x xs ih =>
    cases a with
    | zero => rfl
    | succ a =>
      simp only [List.length_cons, Nat.succ_lt_succ_iff] at h
      simpa [List.set, getD_cons_succ] using ih h

theorem getD_set_ne {α : Type} {l : List α} {a b : Nat} {v d : α}
    (h : b ≠ a) :
    (l.set a v).getD b d = l.getD b d := by
  induction l generalizing a b with
  | nil => simp [List.getD]
  | cons x xs ih =>
    cases a with
    | zero =>
      cases b with
      | zero => exact absurd rfl h
      | succ b => rfl
    | succ a =>
      cases b with
      | zero => rfl
      | succ b =>
        have hb : b ≠ a := fun hba => h (by simp [hba])
        simpa [List.set, getD_cons_succ] using ih hb

theorem mem_of_getD {l : List Nat} {a : Nat} (d : Nat) (h : a < l.length) :
    l.getD a d ∈ l := by
  induction l generalizing a with
  | nil => simp at h
  | cons x xs ih =>
    cases a with
    | zero => simp [getD_cons_zero]
    | succ a =>
      simp only [List.length_cons, Nat.succ_lt_succ_iff] at h
      exact List.mem_cons_of_mem _ (ih h)

theorem mem_of_mem_set {l : List Nat} {a v x : Nat} (h : x ∈ l.set a v) :
    x ∈ l ∨ x = v := by
  induction l generalizing a with
  | nil => simp [List.set] at h
  | cons y ys ih =>
    cases a with
    | zero =>
      rcases List.mem_cons.mp h with h1 | h1
      · exact Or.inr h1
      · exact Or.inl (List.mem_cons_of_mem _ h1)
    | succ a =>
      rcases List.mem_cons.mp h with h1 | h1
      · exact Or.inl (h1 ▸ List.mem_cons_self _ _)
      · rcases ih h1 with h2 | h2
        · exact Or.inl (List.mem_cons_of_mem _ h2)
        · exact Or.inr h2

/-! ### Parent-pointer iteration (core of the disjoint-set forest) -/

/-- One parent-pointer step: `parent[a]`, with out-of-range indices fixed. -/
def pstep (p : List Nat) (a : Nat) : Nat := p.getD a a

/-- `k`-fold parent-pointer iteration. -/
def piter (p : List Nat) : Nat → Nat → Nat
  | 0, a => a
  | k + 1, a => piter p k (pstep p a)

/-- `a` is a root of the forest `p`. -/
def isRoot (p : List Nat) (a : Nat) : Prop := pstep p a = a

instance (p : List Nat) (a : Nat) : Decidable (isRoot p a) := by
  unfold isRoot; infer_instance

theorem piter_zero {p : List Nat} {a : Nat} : piter p 0 a = a := rfl

theorem piter_one {p : List Nat} {a : Nat} : piter p 1 a = pstep p a := rfl

theorem piter_succ_left {p : List Nat} {k a : Nat} :
    piter p (k + 1) a = piter p k (pstep p a) := rfl

theorem piter_add {p : List Nat} (j k a : Nat) :
    piter p (j + k) a = piter p k (piter p j a) := by
  induction j generalizing a with
  | zero => simp [piter_zero]
  | succ j ih =>
    have : j + 1 + k = (j + k) + 1 := by omega
    rw [this, piter_succ_left, piter_succ_left, ih]

theorem piter_succ_right {p : List Nat} (k a : Nat) :
    piter p (k + 1) a = pstep p (piter p k a) := by
  have h := piter_add (p := p) k 1 a
  have : k + 1 = k + 1 := rfl
  rw [show k + 1 = k + 1 from rfl]
  calc piter p (k + 1) a = piter p 1 (piter p k a) := h
    _ = pstep p (piter p k a) := rfl

theorem piter_fix {p : List Nat} {b : Nat} (h : isRoot p b) (k : Nat) :
    piter p k b = b := by
  induction k with
  | zero => rfl
  | succ k ih => rw [piter_succ_left, h, ih]

theorem root_stable {p : List Nat} {k a : Nat} (h : isRoot p (piter p k a))
    {m : Nat} (hkm : k ≤ m) : piter p m a = piter p k a := by
  have : m = k + (m - k) := by omega
  rw [this, piter_add, piter_fix h]

theorem root_unique {p : List Nat} {k m a : Nat}
    (hk : isRoot p (piter p k a)) (hm : isRoot p (piter p m a)) :
    piter p k a = piter p m a := by
  rcases Nat.le_total k m with h | h
  · rw [root_stable hk h]
  · rw [root_stable hm h]

theorem pstep_lt {p : List Nat} (hb : ∀ x ∈ p, x < p.length) {a : Nat}
    (ha : a < p.length) : pstep p a < p.length :=
  hb _ (mem_of_getD a ha)

theorem piter_lt {p : List Nat} (hb : ∀ x ∈ p, x < p.length) {a : Nat}
    (ha : a < p.length) (k : Nat) : piter p k a < p.length := by
  induction k generalizing a with
  | zero => exact ha
  | succ k ih => rw [piter_succ_left]; exact ih (pstep_lt hb ha)

theorem cycle_iterate {p : List Nat} {m a : Nat} (h : piter p m a = a) :
    ∀ c, piter p (c * m) a = a := by
  intro c
  induction c with
  | zero => rw [Nat.zero_mul]; rfl
  | succ c ih =>
    have : (c + 1) * m = c * m + m := by ring
    rw [this, piter_add, ih, h]

/-- From a non-root `a` whose path reaches a root, the path starting at the
grandparent of `a` never returns to `a`. -/
theorem no_return {p : List Nat} {k a : Nat} (hk : isRoot p (piter p k a))
    (ha : ¬ isRoot p a) : ∀ m, piter p m (piter p 2 a) ≠ a := by
  intro m hm
  have hcyc : piter p (2 + m) a = a := by rw [piter_add]; exact hm
  have hper : ∀ c, piter p (c * (2 + m)) a = a := cycle_iterate hcyc
  have hge : k ≤ (k + 1) * (2 + m) := by nlinarith
  have h1 : piter p ((k + 1) * (2 + m)) a = piter p k a := root_stable hk hge
  have h2 : piter p ((k + 1) * (2 + m)) a = a := hper (k + 1)
  have h3 : piter p k a = a := h1.symm.trans h2
  rw [h3] at hk
  exact ha hk

/-! ### Effect of a single parent-pointer update on paths -/

theorem piter_set_untouched {p : List Nat} {a v x m : Nat}
    (h : ∀ i, i < m → piter p i x ≠ a) :
    piter (p.set a v) m x = piter p m x := by
  induction m generalizing x with
  | zero => rfl
  | succ m ih =>
    have hx : x ≠ a := h 0 (Nat.succ_pos m)
    have hstep : pstep (p.set a v) x = pstep p x := by
      unfold pstep
      exact getD_set_ne hx
    rw [piter_succ_left, piter_succ_left, hstep]
    exact ih (fun i hi => h (i + 1) (by omega))

theorem isRoot_set_of_ne {p : List Nat} {a v r : Nat} (hr : isRoot p r)
    (hne : r ≠ a) : isRoot (p.set a v) r := by
  unfold isRoot pstep at *
  rw [getD_set_ne hne]
  exact hr

theorem root_ne_of_not_root {p : List Nat} {a r : Nat} (har : ¬ isRoot p a)
    (hr : isRoot p r) : r ≠ a := fun h => har (h ▸ hr)

/-- Pigeonhole: under the bounds invariant, if the path from `x` reaches a
root at all within `p.length` steps, it already reaches one in fewer than
`p.length` steps. -/
theorem root_within {p : List Nat} (hb : ∀ x ∈ p, x < p.length) {x : Nat}
    (hx : x < p.length) (hn : isRoot p (piter p p.length x)) :
    ∃ m, m < p.length ∧ isRoot p (piter p m x) := by
  set n := p.length with hn_def
  by_contra hcon
  push_neg at hcon
  have hmaps : ∀ i ∈ Finset.range (n + 1), piter p i x ∈ Finset.range n := by
    intro i _
    exact Finset.mem_range.mpr (piter_lt hb hx i)
  have hcard : (Finset.range n).card < (Finset.range (n + 1)).card := by
    simp
  obtain ⟨i, hi, j, hj, hij, heq⟩ :=
    Finset.exists_ne_map_eq_of_card_lt_of_maps_to hcard hmaps
  simp only [Finset.mem_range] at hi hj
  -- without loss of generality i < j
  rcases Nat.lt_or_ge i j with hlt | hge
  case _ =>
    have hper : piter p (j - i) (piter p i x) = piter p i x := by
      have : piter p (i + (j - i)) x = piter p j x := by
        congr 1; omega
      rw [piter_add] at this
      rw [this, ← heq]
    have hcyc := cycle_iterate hper n
    have hL : piter p (i + n * (j - i)) x = piter p i x := by
      rw [piter_add]; exact hcyc
    have hge2 : n ≤ i + n * (j - i) := by
      have h1 : 1 ≤ j - i := by omega
      nlinarith
    have hLr : piter p (i + n * (j - i)) x = piter p n x := root_stable hn hge2
    have : isRoot p (piter p i x) := by
      rw [← hL, hLr]; exact hn
    exact hcon i (by omega) this
  case _ =>
    have hlt : j < i := by omega
    have hper : piter p (i - j) (piter p j x) = piter p j x := by
      have : piter p (j + (i - j)) x = piter p i x := by
        congr 1; omega
      rw [piter_add] at this
      rw [this, heq]
    have hcyc := cycle_iterate hper n
    have hL : piter p (j + n * (i - j)) x = piter p j x := by
      rw [piter_add]; exact hcyc
    have hge2 : n ≤ j + n * (i - j) := by
      have h1 : 1 ≤ i - j := by omega
      nlinarith
    have hLr : piter p (j + n * (i - j)) x = piter p n x := root_stable hn hge2
    have : isRoot p (piter p j x) := by
      rw [← hL, hLr]; exact hn
    exact hcon j (by omega) this

/-- Path-halving update: redirecting a non-root `a` to its grandparent
preserves every node's root and does not lengthen any path. -/
theorem set_half_spec {p : List Nat} {a k : Nat}
    (ha : a < p.length) (har : ¬ isRoot p a)
    (hk : isRoot p (piter p k a)) :
    ∀ x m, isRoot p (piter p m x) →
      isRoot (p.set a (piter p 2 a)) (piter p m x) ∧
      ∃ m2, m2 ≤ m ∧ piter (p.set a (piter p 2 a)) m2 x = piter p m x := by
  intro x m hroot
  set g := piter p 2 a with hg_def
  set r := piter p m x with hr_def
  have hrna : r ≠ a := root_ne_of_not_root har hroot
  have hroot' : isRoot (p.set a g) r := isRoot_set_of_ne hroot hrna
  refine ⟨hroot', ?_⟩
  by_cases hcase : ∃ j, j ≤ m ∧ piter p j x = a
  · -- the path from x passes through a
    have hwf : ∃ j, j ≤ m ∧ piter p j x = a := hcase
    classical
    let j0 := Nat.find hwf
    have hj0 : j0 ≤ m ∧ piter p j0 x = a := Nat.find_spec hwf
    have hj0min : ∀ i, i < j0 → ¬(i ≤ m ∧ piter p i x = a) :=
      fun i hi => Nat.find_min hwf hi
    have hj0m : j0 ≤ m := hj0.1
    have hj0a : piter p j0 x = a := hj0.2
    have hj0ltm : j0 < m := by
      rcases Nat.lt_or_ge j0 m with h | h
      · exact h
      · exfalso
        have : j0 = m := by omega
        rw [this] at hj0a
        exact hrna (hj0a ▸ rfl)
    have hpre : piter (p.set a g) j0 x = piter p j0 x := by
      apply piter_set_untouched
      intro i hi
      intro hia
      exact hj0min i hi ⟨by omega, hia⟩
    have hrest : piter p (m - j0) a = r := by
      have h1 : piter p (j0 + (m - j0)) x = piter p (m - j0) a := by
        rw [piter_add, hj0a]
      have h2 : j0 + (m - j0) = m := by omega
      rw [h2] at h1
      rw [hr_def, ← h1]
    have hrest1 : 1 ≤ m - j0 := by omega
    have hstep_a : pstep (p.set a g) a = g := by
      unfold pstep
      exact getD_set_self ha
    rcases Nat.lt_or_ge (m - j0) 2 with hr1 | hr2
    · -- exactly one step from a to the root
      have hre : m - j0 = 1 := by omega
      have hpa : pstep p a = r := by
        rw [← piter_one, ← hre] at *
        exact hrest
      have hgr : g = r := by
        rw [hg_def]
        have : piter p 2 a = pstep p (pstep p a) := by
          rw [piter_succ_left, piter_one]
        rw [this, hpa]
        exact hroot
      refine ⟨j0 + 1, by omega, ?_⟩
      rw [piter_succ_right, hpre, hj0a, hstep_a, hgr]
    · -- at least two steps from a to the root: the shortcut lands on the path
      have hg2 : piter p ((m - j0) - 2) g = r := by
        rw [hg_def, ← piter_add, show 2 + ((m - j0) - 2) = m - j0 by omega]
        exact hrest
      have havoid : ∀ i, piter p i g ≠ a := by
        rw [hg_def]; exact no_return hk har
      have htrans : piter (p.set a g) ((m - j0) - 2) g = piter p ((m - j0) - 2) g :=
        piter_set_untouched (fun i _ => havoid i)
      have hstep1 : piter (p.set a g) (j0 + 1) x = g := by
        rw [piter_succ_right, hpre, hj0a, hstep_a]
      refine ⟨j0 + 1 + ((m - j0) - 2), by omega, ?_⟩
      rw [piter_add, hstep1, htrans, hg2]
  · -- the path from x avoids a entirely
    push_neg at hcase
    refine ⟨m, le_refl m, ?_⟩
    rw [hr_def]
    apply piter_set_untouched
    intro i hi
    exact hcase i (by omega)

/-- Linking a root `pb` under another root `pa` (union step): every path
still reaches a root, in at most one extra step, and roots map through the
link. -/
theorem set_link_spec {p : List Nat} {pa pb : Nat}
    (hpb : pb < p.length) (hrpa : isRoot p pa) (hrpb : isRoot p pb)
    (hne : pa ≠ pb) :
    ∀ x m, isRoot p (piter p m x) →
      ∃ m2, m2 ≤ m + 1 ∧
        piter (p.set pb pa) m2 x =
          (if piter p m x = pb then pa else piter p m x) ∧
        isRoot (p.set pb pa) (piter (p.set pb pa) m2 x) := by
  intro x m hroot
  set r := piter p m x with hr_def
  have hrpa' : isRoot (p.set pb pa) pa := isRoot_set_of_ne hrpa hne
  by_cases hrb : r = pb
  · -- the old root was pb: the new path continues one step to pa
    classical
    have hwf : ∃ j, j ≤ m ∧ piter p j x = pb := ⟨m, le_refl m, hrb⟩
    let j0 := Nat.find hwf
    have hj0 : j0 ≤ m ∧ piter p j0 x = pb := Nat.find_spec hwf
    have hj0min : ∀ i, i < j0 → ¬(i ≤ m ∧ piter p i x = pb) :=
      fun i hi => Nat.find_min hwf hi
    have hpre : piter (p.set pb pa) j0 x = piter p j0 x := by
      apply piter_set_untouched
      intro i hi hia
      exact hj0min i hi ⟨by omega, hia⟩
    have hstep_b : pstep (p.set pb pa) pb = pa := by
      unfold pstep
      exact getD_set_self hpb
    refine ⟨j0 + 1, by omega, ?_, ?_⟩
    · rw [piter_succ_right, hpre, hj0.2, hstep_b, if_pos hrb]
    · rw [piter_succ_right, hpre, hj0.2, hstep_b]
      exact hrpa'
  · -- the old root was not pb: the path is untouched
    have havoid : ∀ i, i ≤ m → piter p i x ≠ pb := by
      intro i hi hib
      apply hrb
      rw [hr_def, show m = i + (m - i) by omega, piter_add, hib,
        piter_fix hrpb]
    have htrans : piter (p.set pb pa) m x = piter p m x :=
      piter_set_untouched (fun i hi => havoid i (by omega))
    refine ⟨m, by omega, ?_, ?_⟩
    · rw [htrans, if_neg hrb]
    · rw [htrans, ← hr_def]
      exact isRoot_set_of_ne hroot hrb

/-! ### The DSU class (union-by-size, path halving on find) -/

structure DSU where
  parent : List Nat
  size : List Nat

/-- `DSU.__init__`: `parent = list(range(n))`, `size = [1]*n`. -/
def DSU.mk0 (n : Nat) : DSU := ⟨List.range n, List.replicate n 1⟩

/-- The `while` loop of `DSU.find` (path halving), fuel-bounded.  Under the
forest invariant a fuel of `parent.length` is proven sufficient. -/
def findAux (p : List Nat) (a : Nat) : Nat → List Nat × Nat
  | 0 => (p, a)
  | fuel + 1 =>
    if pstep p a = a then (p, a)
    else findAux (p.set a (pstep p (pstep p a))) (pstep p (pstep p a)) fuel

/-- `DSU.find`: returns the updated structure and the root. -/
def DSU.find (d : DSU) (a : Nat) : DSU × Nat :=
  ((⟨(findAux d.parent a d.parent.length).1, d.size⟩ : DSU),
    (findAux d.parent a d.parent.length).2)

/-- `DSU.union`: union by size; note the root finds mutate the parents. -/
def DSU.union (d : DSU) (a b : Nat) : DSU :=
  let d1 := (d.find a).1
  let pa := (d.find a).2
  let d2 := (d1.find b).1
  let pb := (d1.find b).2
  if pa = pb then d2
  else if d2.size.getD pa 0 < d2.size.getD pb 0 then
    ⟨d2.parent.set pa pb, d2.size.set pb (d2.size.getD pb 0 + d2.size.getD pa 0)⟩
  else
    ⟨d2.parent.set pb pa, d2.size.set pa (d2.size.getD pa 0 + d2.size.getD pb 0)⟩

/-- The root an index resolves to (a pure observation of the forest). -/
def rootOf (p : List Nat) (a : Nat) : Nat := piter p p.length a

/-- The recorded size of every root equals the number of indices resolving
to it. -/
def SizeOk (d : DSU) : Prop :=
  ∀ r, r < d.parent.length → isRoot d.parent r →
    d.size.getD r 0 =
      ((List.range d.parent.length).filter
        (fun x => decide (rootOf d.parent x = r))).length

/-- Forest invariant: size array in sync, parent entries in range, every
path reaches a root within `parent.length` steps (acyclicity / termination),
and recorded sizes are the class cardinalities. -/
def Wf (d : DSU) : Prop :=
  d.size.length = d.parent.length ∧
  (∀ x ∈ d.parent, x < d.parent.length) ∧
  (∀ a, a < d.parent.length →
    isRoot d.parent (piter d.parent d.parent.length a)) ∧
  SizeOk d

instance (d : DSU) : Decidable (SizeOk d) := by
  unfold SizeOk
  infer_instance

instance (d : DSU) : Decidable (Wf d) := by
  unfold Wf
  infer_instance

theorem rootOf_root {p : List Nat}
    (hn : ∀ a, a < p.length → isRoot p (piter p p.length a)) {a : Nat}
    (ha : a < p.length) : isRoot p (rootOf p a) := hn a ha

theorem isRoot_of_rootOf_self {p : List Nat}
    (hn : ∀ a, a < p.length → isRoot p (piter p p.length a)) {r : Nat}
    (hr : r < p.length) (h : rootOf p r = r) : isRoot p r := by
  have := hn r hr
  rw [show piter p p.length r = rootOf p r from rfl, h] at this
  exact this

theorem rootOf_eq_of_isRoot {p : List Nat} {r : Nat} (h : isRoot p r) :
    rootOf p r = r := piter_fix h _

theorem rootOf_lt {p : List Nat} (hb : ∀ x ∈ p, x < p.length) {a : Nat}
    (ha : a < p.length) : rootOf p a < p.length := piter_lt hb ha _


/-- `findAux` with enough fuel reaches the root, keeps lengths and bounds,
preserves every node's root and never lengthens a path to a root. -/
theorem findAux_spec (fuel : Nat) :
    ∀ (p : List Nat) (a k : Nat),
      (∀ x ∈ p, x < p.length) → a < p.length →
      isRoot p (piter p k a) → k < fuel →
      (findAux p a fuel).2 = piter p k a ∧
      (findAux p a fuel).1.length = p.length ∧
      (∀ x ∈ (findAux p a fuel).1, x < p.length) ∧
      (∀ x m, isRoot p (piter p m x) →
        isRoot (findAux p a fuel).1 (piter p m x) ∧
        ∃ m2, m2 ≤ m ∧ piter (findAux p a fuel).1 m2 x = piter p m x) := by
  induction fuel with
  | zero => intro p a k _ _ _ hk; omega
  | succ fuel ih =>
    intro p a k hb ha hk hkf
    have hstepEq : findAux p a (fuel + 1) =
        if pstep p a = a then (p, a)
        else findAux (p.set a (pstep p (pstep p a))) (pstep p (pstep p a)) fuel :=
      rfl
    by_cases hroot : pstep p a = a
    · have hfind : findAux p a (fuel + 1) = (p, a) := by
        rw [hstepEq, if_pos hroot]
      have haroot : isRoot p a := hroot
      have hka : piter p k a = a := by
        have h0 : isRoot p (piter p 0 a) := haroot
        have := root_unique hk h0
        simpa using this
      rw [hfind]
      refine ⟨by simpa using hka.symm, rfl, hb, ?_⟩
      intro x m hm
      exact ⟨hm, m, le_refl m, rfl⟩
    · have hfind : findAux p a (fuel + 1) =
          findAux (p.set a (pstep p (pstep p a))) (pstep p (pstep p a)) fuel := by
        rw [hstepEq, if_neg hroot]
      have har : ¬ isRoot p a := hroot
      have hg2 : pstep p (pstep p a) = piter p 2 a := rfl
      set g := pstep p (pstep p a) with hg_def
      have hk1 : 1 ≤ k := by
        by_contra hc
        have hk0 : k = 0 := by omega
        rw [hk0] at hk
        exact har hk
      -- the grandparent is on the path: `piter p k2 g = piter p k a`
      have hgk : ∃ k2, k2 ≤ k - 1 ∧ piter p k2 g = piter p k a := by
        rcases Nat.lt_or_ge k 2 with h1 | h2
        · have hke : k = 1 := by omega
          refine ⟨0, by omega, ?_⟩
          rw [hke, piter_one, piter_zero, hg_def]
          rw [hke, piter_one] at hk
          exact hk
        · refine ⟨k - 2, by omega, ?_⟩
          have h3 : piter p (2 + (k - 2)) a = piter p k a := by congr 1; omega
          rw [piter_add] at h3
          rw [← hg2] at h3
          exact h3
      rcases hgk with ⟨k2, hk2le, hk2eq⟩
      have hk2root : isRoot p (piter p k2 g) := by rw [hk2eq]; exact hk
      have hg_lt : g < p.length := pstep_lt hb (pstep_lt hb ha)
      have hEE : p.set a g = p.set a (piter p 2 a) := by rw [hg2]
      have hlen' : (p.set a g).length = p.length := List.length_set p a g
      have hb' : ∀ x ∈ p.set a g, x < (p.set a g).length := by
        intro x hx
        rw [hlen']
        rcases mem_of_mem_set hx with h1 | h1
        · exact hb x h1
        · rw [h1]; exact hg_lt
      have ha' : g < (p.set a g).length := by rw [hlen']; exact hg_lt
      have hhalfg := set_half_spec ha har hk g k2 hk2root
      rw [← hEE] at hhalfg
      obtain ⟨hrtg, m2, hm2le, hm2eq⟩ := hhalfg
      have hrootg' : isRoot (p.set a g) (piter (p.set a g) m2 g) := by
        rw [hm2eq]; exact hrtg
      have hm2f : m2 < fuel := by omega
      have hih := ih (p.set a g) g m2 hb' ha' hrootg' hm2f
      rw [hfind]
      refine ⟨?_, ?_, ?_, ?_⟩
      · rw [hih.1, hm2eq, hk2eq]
      · rw [hih.2.1, hlen']
      · intro x hx
        have := hih.2.2.1 x hx
        rw [hlen'] at this
        exact this
      · intro x m hxm
        have hS := set_half_spec ha har hk x m hxm
        rw [← hEE] at hS
        obtain ⟨hSroot, mm, hmmle, hmmeq⟩ := hS
        have hSroot' : isRoot (p.set a g) (piter (p.set a g) mm x) := by
          rw [hmmeq]; exact hSroot
        obtain ⟨hfin_root, m3, hm3le, hm3eq⟩ := hih.2.2.2 x mm hSroot'
        rw [hmmeq] at hfin_root
        refine ⟨hfin_root, m3, by omega, ?_⟩
        rw [hm3eq, hmmeq]

/-- Specification of `DSU.find`: returns the root, preserves the invariant,
the lengths, the size array, and every node's root. -/
theorem DSU.find_spec {d : DSU} (hw : Wf d) {a : Nat}
    (ha : a < d.parent.length) :
    (d.find a).2 = rootOf d.parent a ∧
    Wf (d.find a).1 ∧
    (d.find a).1.parent.length = d.parent.length ∧
    (d.find a).1.size = d.size ∧
    (∀ x, x < d.parent.length →
      rootOf (d.find a).1.parent x = rootOf d.parent x) := by
  obtain ⟨hs, hb, hn, hz⟩ := hw
  have hroot_n : isRoot d.parent (piter d.parent d.parent.length a) := hn a ha
  obtain ⟨m, hmlt, hmroot⟩ := root_within hb ha hroot_n
  have hspec := findAux_spec d.parent.length d.parent a m hb ha hmroot hmlt
  obtain ⟨hsnd, hql, hqb, hq4⟩ := hspec
  have hfind1 : (d.find a).1.parent = (findAux d.parent a d.parent.length).1 := rfl
  have hfindsz : (d.find a).1.size = d.size := rfl
  have hfind2 : (d.find a).2 = (findAux d.parent a d.parent.length).2 := rfl
  have hpres : ∀ x, x < d.parent.length →
      rootOf (d.find a).1.parent x = rootOf d.parent x := by
    intro x hx
    obtain ⟨hroot_q, m2, hm2le, hm2eq⟩ := hq4 x d.parent.length (hn x hx)
    have hm2root : isRoot (findAux d.parent a d.parent.length).1
        (piter (findAux d.parent a d.parent.length).1 m2 x) := by
      rw [hm2eq]; exact hroot_q
    have hstab : piter (findAux d.parent a d.parent.length).1
        (findAux d.parent a d.parent.length).1.length x =
        piter (findAux d.parent a d.parent.length).1 m2 x := by
      apply root_stable hm2root
      omega
    rw [hfind1]
    unfold rootOf
    rw [hstab, hm2eq]
  refine ⟨?_, ?_, by rw [hfind1]; exact hql, hfindsz, hpres⟩
  · rw [hfind2, hsnd]
    unfold rootOf
    exact (root_stable hmroot (by omega)).symm
  · refine ⟨?_, ?_, ?_, ?_⟩
    · rw [hfindsz, hfind1, hql, hs]
    · rw [hfind1]
      intro x hx
      rw [hql]
      exact hqb x hx
    · rw [hfind1]
      intro x hx
      rw [hql] at hx
      obtain ⟨hroot_q, m2, hm2le, hm2eq⟩ := hq4 x d.parent.length (hn x hx)
      have hm2root : isRoot (findAux d.parent a d.parent.length).1
          (piter (findAux d.parent a d.parent.length).1 m2 x) := by
        rw [hm2eq]; exact hroot_q
      have hstab : piter (findAux d.parent a d.parent.length).1
          (findAux d.parent a d.parent.length).1.length x =
          piter (findAux d.parent a d.parent.length).1 m2 x := by
        apply root_stable hm2root
        omega
      rw [hstab, hm2eq]
      exact hroot_q
    · intro r hr hrq
      rw [hfind1, hql] at hr
      have hself : rootOf (d.find a).1.parent r = r := by
        rw [hfind1]
        exact rootOf_eq_of_isRoot hrq
      have hself_p : rootOf d.parent r = r := by
        rw [← hpres r hr]
        exact hself
      have hrp : isRoot d.parent r := isRoot_of_rootOf_self hn hr hself_p
      have hcard := hz r hr hrp
      rw [hfindsz, hfind1, hql]
      rw [hfind1] at hrq
      rw [hcard]
      congr 1
      apply List.filter_congr
      intro x hx
      have hxlt : x < d.parent.length := List.mem_range.mp hx
      rw [← hfind1, hpres x hxlt]

theorem length_filter_or {l : List Nat} (p q : Nat → Bool)
    (h : ∀ x ∈ l, ¬(p x = true ∧ q x = true)) :
    (l.filter (fun x => p x || q x)).length =
      (l.filter p).length + (l.filter q).length := by
  induction l with
  | nil => rfl
  | cons a l ih =>
    have ha := h a (List.mem_cons_self a l)
    have ih' := ih (fun x hx => h x (List.mem_cons_of_mem _ hx))
    cases hp : p a with
    | true =>
      cases hq : q a with
      | true => exact absurd ⟨hp, hq⟩ ha
      | false =>
        simp only [List.filter_cons, hp, hq, Bool.true_or, if_true, if_false,
          Bool.false_eq_true, List.length_cons, ih']
        omega
    | false =>
      cases hq : q a with
      | true =>
        simp only [List.filter_cons, hp, hq, Bool.false_or, if_true, if_false,
          Bool.false_eq_true, List.length_cons, ih']
        omega
      | false =>
        simp only [List.filter_cons, hp, hq, Bool.false_or, if_false,
          Bool.false_eq_true, ih']

/-- Linking root `sm` below root `bg` and adding the sizes preserves the
forest invariant. -/
theorem link_wf {d : DSU} (hw : Wf d) {bg sm : Nat}
    (hbg : bg < d.parent.length) (hsm : sm < d.parent.length)
    (hrbg : isRoot d.parent bg) (hrsm : isRoot d.parent sm)
    (hne : bg ≠ sm) :
    Wf ⟨d.parent.set sm bg,
        d.size.set bg (d.size.getD bg 0 + d.size.getD sm 0)⟩ := by
  obtain ⟨hs, hb, hn, hz⟩ := hw
  have hlen' : (d.parent.set sm bg).length = d.parent.length :=
    List.length_set d.parent sm bg
  have hchar : ∀ x, x < d.parent.length →
      isRoot (d.parent.set sm bg) (rootOf (d.parent.set sm bg) x) ∧
      rootOf (d.parent.set sm bg) x =
        (if rootOf d.parent x = sm then bg else rootOf d.parent x) := by
    intro x hx
    obtain ⟨m, hmlt, hmroot⟩ := root_within hb hx (hn x hx)
    obtain ⟨m2, hm2le, hm2eq, hm2root⟩ := set_link_spec hsm hrbg hrsm hne x m hmroot
    have hv : piter d.parent m x = rootOf d.parent x := by
      unfold rootOf
      exact (root_stable hmroot (by omega)).symm
    have hstab : piter (d.parent.set sm bg) (d.parent.set sm bg).length x =
        piter (d.parent.set sm bg) m2 x := by
      apply root_stable hm2root
      rw [hlen']
      omega
    have hru : rootOf (d.parent.set sm bg) x =
        piter (d.parent.set sm bg) m2 x := hstab
    constructor
    · rw [hru]
      exact hm2root
    · rw [hru, hm2eq, hv]
  have hsm_nonroot : ¬ isRoot (d.parent.set sm bg) sm := by
    unfold isRoot pstep
    rw [getD_set_self hsm]
    exact fun hcon => hne hcon
  refine ⟨?_, ?_, ?_, ?_⟩
  · simp only [hlen', List.length_set]
    exact hs
  · intro x hx
    simp only [hlen']
    rcases mem_of_mem_set hx with h1 | h1
    · exact hb x h1
    · rw [h1]; exact hbg
  · intro x hx
    simp only [hlen'] at hx ⊢
    have h1 := (hchar x hx).1
    unfold rootOf at h1
    rw [hlen'] at h1
    exact h1
  · intro r hr hrq
    simp only [hlen'] at hr ⊢
    have hrne_sm : r ≠ sm := by
      intro he
      rw [he] at hrq
      exact hsm_nonroot hrq
    have hrp : isRoot d.parent r := by
      have : pstep (d.parent.set sm bg) r = pstep d.parent r := by
        unfold pstep
        exact getD_set_ne hrne_sm
      unfold isRoot at hrq ⊢
      rw [← this]
      exact hrq
    by_cases hrbg2 : r = bg
    · -- the surviving root: its class is the union of the two old classes
      rw [hrbg2]
      have hsz : (d.size.set bg (d.size.getD bg 0 + d.size.getD sm 0)).getD bg 0 =
          d.size.getD bg 0 + d.size.getD sm 0 :=
        getD_set_self (by rw [hs]; exact hbg)
      rw [hsz]
      have hcong : (List.range d.parent.length).filter
            (fun x => decide (rootOf (d.parent.set sm bg) x = bg)) =
          (List.range d.parent.length).filter
            (fun x => decide (rootOf d.parent x = bg) ||
              decide (rootOf d.parent x = sm)) := by
        apply List.filter_congr
        intro x hx
        have hxlt : x < d.parent.length := List.mem_range.mp hx
        by_cases hxsm : rootOf d.parent x = sm
        · rw [(hchar x hxlt).2, if_pos hxsm]
          simp [hxsm]
        · rw [(hchar x hxlt).2, if_neg hxsm]
          simp [hxsm]
      rw [hcong]
      have hdisj : ∀ x ∈ List.range d.parent.length,
          ¬(decide (rootOf d.parent x = bg) = true ∧
            decide (rootOf d.parent x = sm) = true) := by
        intro x _ hboth
        obtain ⟨h1, h2⟩ := hboth
        rw [decide_eq_true_eq] at h1 h2
        exact hne (h1 ▸ h2 ▸ rfl)
      rw [length_filter_or _ _ hdisj, hz bg hbg hrbg, hz sm hsm hrsm]
    · -- untouched roots keep their class and size entry
      have hsz : (d.size.set bg (d.size.getD bg 0 + d.size.getD sm 0)).getD r 0 =
          d.size.getD r 0 := getD_set_ne hrbg2
      rw [hsz]
      have hcong : (List.range d.parent.length).filter
            (fun x => decide (rootOf (d.parent.set sm bg) x = r)) =
          (List.range d.parent.length).filter
            (fun x => decide (rootOf d.parent x = r)) := by
        apply List.filter_congr
        intro x hx
        have hxlt : x < d.parent.length := List.mem_range.mp hx
        by_cases hxsm : rootOf d.parent x = sm
        · rw [(hchar x hxlt).2, if_pos hxsm, hxsm]
          have h1 : ¬ (bg = r) := fun he => hrbg2 he.symm
          have h2 : ¬ (sm = r) := fun he => hrne_sm he.symm
          simp [h1, h2]
        · rw [(hchar x hxlt).2, if_neg hxsm]
      rw [hcong]
      exact hz r hr hrp

/-- `DSU.union` preserves the forest invariant and the element count. -/
theorem DSU.union_spec {d : DSU} (hw : Wf d) {a b : Nat}
    (ha : a < d.parent.length) (hb2 : b < d.parent.length) :
    Wf (d.union a b) ∧ (d.union a b).parent.length = d.parent.length := by
  obtain ⟨hspec1, hw1, hlen1, hsz1, hpres1⟩ := DSU.find_spec hw ha
  have hb1 : b < (d.find a).1.parent.length := by rw [hlen1]; exact hb2
  obtain ⟨hspec2, hw2, hlen2, hsz2, hpres2⟩ := DSU.find_spec hw1 hb1
  have hboundsd : ∀ x ∈ d.parent, x < d.parent.length := hw.2.1
  have hnormd : ∀ x, x < d.parent.length →
      isRoot d.parent (piter d.parent d.parent.length x) := hw.2.2.1
  have hlen21 : ((d.find a).1.find b).1.parent.length = d.parent.length := by
    rw [hlen2, hlen1]
  have hpa_lt : (d.find a).2 < d.parent.length := by
    rw [hspec1]
    exact rootOf_lt hboundsd ha
  have hpb_lt : ((d.find a).1.find b).2 < d.parent.length := by
    rw [hspec2, hpres1 b hb2]
    exact rootOf_lt hboundsd hb2
  have hpa_root : isRoot d.parent (d.find a).2 := by
    rw [hspec1]
    exact rootOf_root hnormd ha
  have hpa_d2 : rootOf ((d.find a).1.find b).1.parent (d.find a).2 =
      (d.find a).2 := by
    rw [hpres2 (d.find a).2 (by rw [hlen1]; exact hpa_lt),
      hpres1 (d.find a).2 hpa_lt]
    exact rootOf_eq_of_isRoot hpa_root
  have hpa_root2 : isRoot ((d.find a).1.find b).1.parent (d.find a).2 := by
    apply isRoot_of_rootOf_self hw2.2.2.1 _ hpa_d2
    rw [hlen21]
    exact hpa_lt
  have hpb_root1 : isRoot (d.find a).1.parent ((d.find a).1.find b).2 := by
    rw [hspec2]
    exact rootOf_root hw1.2.2.1 hb1
  have hpb_d2 : rootOf ((d.find a).1.find b).1.parent ((d.find a).1.find b).2 =
      ((d.find a).1.find b).2 := by
    rw [hpres2 ((d.find a).1.find b).2 (by rw [hlen1]; exact hpb_lt)]
    exact rootOf_eq_of_isRoot hpb_root1
  have hpb_root2 : isRoot ((d.find a).1.find b).1.parent ((d.find a).1.find b).2 := by
    apply isRoot_of_rootOf_self hw2.2.2.1 _ hpb_d2
    rw [hlen21]
    exact hpb_lt
  have hpa_lt2 : (d.find a).2 < ((d.find a).1.find b).1.parent.length := by
    rw [hlen21]; exact hpa_lt
  have hpb_lt2 : ((d.find a).1.find b).2 < ((d.find a).1.find b).1.parent.length := by
    rw [hlen21]; exact hpb_lt
  simp only [DSU.union]
  by_cases heq : (d.find a).2 = ((d.find a).1.find b).2
  · rw [if_pos heq]
    exact ⟨hw2, hlen21⟩
  · rw [if_neg heq]
    by_cases hsz : ((d.find a).1.find b).1.size.getD (d.find a).2 0 <
        ((d.find a).1.find b).1.size.getD ((d.find a).1.find b).2 0
    · rw [if_pos hsz]
      constructor
      · exact link_wf hw2 hpb_lt2 hpa_lt2 hpb_root2 hpa_root2
          (fun h => heq h.symm)
      · rw [List.length_set]
        exact hlen21
    · rw [if_neg hsz]
      constructor
      · exact link_wf hw2 hpa_lt2 hpb_lt2 hpa_root2 hpb_root2 heq
      · rw [List.length_set]
        exact hlen21

theorem filter_eq_range_len {n r : Nat} (hr : r < n) :
    ((List.range n).filter (fun x => decide (x = r))).length = 1 := by
  induction n with
  | zero => omega
  | succ n ih =>
    rw [List.range_succ, List.filter_append]
    by_cases h : r < n
    · have ih' := ih h
      have hlast : [n].filter (fun x => decide (x = r)) = [] := by
        simp only [List.filter, decide_eq_true_eq]
        have : ¬ (n = r) := by omega
        simp [this]
      rw [hlast]
      simp [ih']
    · have hrn : r = n := by omega
      have hfirst : (List.range n).filter (fun x => decide (x = r)) = [] := by
        apply List.filter_eq_nil_iff.mpr
        intro x hx
        have := List.mem_range.mp hx
        simp only [decide_eq_true_eq]
        omega
      rw [hfirst, hrn]
      simp [List.filter]

/-- The freshly initialized DSU satisfies the forest invariant. -/
theorem mk0_wf (n : Nat) : Wf (DSU.mk0 n) := by
  have hroot : ∀ a, a < n → isRoot (List.range n) a := by
    intro a ha
    unfold isRoot pstep
    simp [List.getD_eq_getElem?_getD, List.getElem?_range ha]
  have hrootOf : ∀ x, x < n → rootOf (List.range n) x = x := by
    intro x hx
    unfold rootOf
    exact piter_fix (hroot x hx) _
  refine ⟨?_, ?_, ?_, ?_⟩
  · show (List.replicate n 1).length = (List.range n).length
    simp
  · show ∀ x ∈ List.range n, x < (List.range n).length
    intro x hx
    rw [List.length_range]
    exact List.mem_range.mp hx
  · show ∀ a, a < (List.range n).length →
        isRoot (List.range n) (piter (List.range n) (List.range n).length a)
    intro a ha
    rw [List.length_range] at ha
    rw [piter_fix (hroot a ha)]
    exact hroot a ha
  · intro r hr hrr
    simp only [DSU.mk0] at hr hrr ⊢
    rw [List.length_range] at hr
    have h1 : (List.replicate n 1).getD r 0 = 1 := by
      simp [List.getD_eq_getElem?_getD, List.getElem?_replicate, hr]
    rw [h1]
    have hcong : (List.range (List.range n).length).filter
          (fun x => decide (rootOf (List.range n) x = r)) =
        (List.range n).filter (fun x => decide (x = r)) := by
      rw [List.length_range]
      apply List.filter_congr
      intro x hx
      rw [hrootOf x (List.mem_range.mp hx)]
    rw [hcong, filter_eq_range_len hr]

/-! ### Operation sequences on the DSU (for the reachable-state invariant) -/

inductive DOp where
  | find (a : Nat) : DOp
  | union (a b : Nat) : DOp

def applyOp (d : DSU) : DOp → DSU
  | DOp.find a => (d.find a).1
  | DOp.union a b => d.union a b

/-- Run a sequence of operations from a fresh `DSU(n)`. -/
def runOps (n : Nat) (ops : List DOp) : DSU := ops.foldl applyOp (DSU.mk0 n)

/-- The operation only touches indices below `n`. -/
def validOp (n : Nat) : DOp → Prop
  | DOp.find a => a < n
  | DOp.union a b => a < n ∧ b < n

instance (n : Nat) : ∀ op, Decidable (validOp n op)
  | DOp.find a => inferInstanceAs (Decidable (a < n))
  | DOp.union a b => inferInstanceAs (Decidable (a < n ∧ b < n))

theorem foldl_ops_wf : ∀ (ops : List DOp) (d : DSU),
    Wf d → (∀ op ∈ ops, validOp d.parent.length op) →
    Wf (ops.foldl applyOp d) ∧
    (ops.foldl applyOp d).parent.length = d.parent.length := by
  intro ops
  induction ops with
  | nil => intro d hw _; exact ⟨hw, rfl⟩
  | cons op ops ih =>
    intro d hw hv
    have hop := hv op (List.mem_cons_self op ops)
    have hstep : Wf (applyOp d op) ∧
        (applyOp d op).parent.length = d.parent.length := by
      cases op with
      | find a =>
        have ha : a < d.parent.length := hop
        obtain ⟨_, hw1, hlen1, _, _⟩ := DSU.find_spec hw ha
        exact ⟨hw1, hlen1⟩
      | union a b =>
        obtain ⟨ha, hb⟩ := hop
        exact DSU.union_spec hw ha hb
    have hv' : ∀ o ∈ ops, validOp (applyOp d op).parent.length o := by
      intro o ho
      rw [hstep.2]
      exact hv o (List.mem_cons_of_mem _ ho)
    have hres := ih (applyOp d op) hstep.1 hv'
    rw [List.foldl_cons]
    exact ⟨hres.1, hres.2.trans hstep.2⟩

theorem runOps_wf {n : Nat} {ops : List DOp}
    (hv : ∀ op ∈ ops, validOp n op) :
    Wf (runOps n ops) ∧ (runOps n ops).parent.length = n := by
  have hlen0 : (DSU.mk0 n).parent.length = n := List.length_range n
  have hv' : ∀ op ∈ ops, validOp (DSU.mk0 n).parent.length op := by
    intro op hop
    rw [hlen0]
    exact hv op hop
  have hres := foldl_ops_wf ops (DSU.mk0 n) (mk0_wf n) hv'
  exact ⟨hres.1, hres.2.trans hlen0⟩

/-! ### Canonical cluster identifiers, determined by the final partition -/

/-- The (sorted) list of indices below `n` in the same class as `i`, where
`R` maps each index to its root. -/
def classMembers (n : Nat) (R : Nat → Nat) (i : Nat) : List Nat :=
  (List.range n).filter (fun j => decide (R j = R i))

/-- Least member of `i`'s class. -/
def minCl (n : Nat) (R : Nat → Nat) (i : Nat) : Nat :=
  (classMembers n R i).headD i

/-- Cardinality of `i`'s class. -/
def clsN (n : Nat) (R : Nat → Nat) (i : Nat) : Nat :=
  (classMembers n R i).length

/-- `m` is the first-scanned member of a class of size `> 1`. -/
def isLeadB (n : Nat) (R : Nat → Nat) (m : Nat) : Bool :=
  decide (minCl n R m = m) && decide (1 < clsN n R m)

/-- Number of leads strictly below `m`. -/
def leadCount (n : Nat) (R : Nat → Nat) (m : Nat) : Nat :=
  ((List.range m).filter (fun x => isLeadB n R x)).length

/-- The canonical cluster identifier of record `i`: `-1` for singleton
classes, else the rank of the first encounter of `i`'s class. -/
def canonId (n : Nat) (R : Nat → Nat) (i : Nat) : Int :=
  if 1 < clsN n R i then Int.ofNat (leadCount n R (minCl n R i)) else -1

def canonIds (n : Nat) (R : Nat → Nat) : List Int :=
  (List.range n).map (canonId n R)

theorem mem_classMembers {n : Nat} {R : Nat → Nat} {i j : Nat} :
    j ∈ classMembers n R i ↔ j < n ∧ R j = R i := by
  unfold classMembers
  simp

theorem classMembers_sorted {n : Nat} {R : Nat → Nat} {i : Nat} :
    (classMembers n R i).Pairwise (· < ·) :=
  (List.pairwise_lt_range n).sublist (List.filter_sublist _)

theorem headD_le_of_sorted {l : List Nat} (hp : l.Pairwise (· < ·)) {j d : Nat}
    (hj : j ∈ l) : l.headD d ≤ j := by
  cases l with
  | nil => simp at hj
  | cons h t =>
    rcases List.mem_cons.mp hj with h1 | h1
    · rw [h1]; rfl
    · have := (List.pairwise_cons.mp hp).1 j h1
      simp only [List.headD_cons]
      omega

theorem self_mem_classMembers {n : Nat} {R : Nat → Nat} {i : Nat}
    (hi : i < n) : i ∈ classMembers n R i :=
  mem_classMembers.mpr ⟨hi, rfl⟩

theorem minCl_mem {n : Nat} {R : Nat → Nat} {i : Nat} (hi : i < n) :
    minCl n R i ∈ classMembers n R i := by
  unfold minCl
  cases hcl : classMembers n R i with
  | nil =>
    exact absurd (hcl ▸ self_mem_classMembers hi) (List.not_mem_nil i)
  | cons h t =>
    simp only [List.headD_cons]
    exact List.mem_cons_self h t

theorem minCl_lt {n : Nat} {R : Nat → Nat} {i : Nat} (hi : i < n) :
    minCl n R i < n := (mem_classMembers.mp (minCl_mem hi)).1

theorem minCl_same {n : Nat} {R : Nat → Nat} {i : Nat} (hi : i < n) :
    R (minCl n R i) = R i := (mem_classMembers.mp (minCl_mem hi)).2

theorem minCl_le {n : Nat} {R : Nat → Nat} {i : Nat} (hi : i < n) :
    minCl n R i ≤ i :=
  headD_le_of_sorted classMembers_sorted (self_mem_classMembers hi)

theorem minCl_le_mem {n : Nat} {R : Nat → Nat} {i j : Nat}
    (hj : j ∈ classMembers n R i) (hi : i < n) : minCl n R i ≤ j := by
  unfold minCl
  exact headD_le_of_sorted classMembers_sorted hj

theorem classMembers_congr {n : Nat} {R : Nat → Nat} {i j : Nat}
    (hij : R i = R j) : classMembers n R i = classMembers n R j := by
  unfold classMembers
  apply List.filter_congr
  intro x _
  rw [hij]

theorem clsN_congr {n : Nat} {R : Nat → Nat} {i j : Nat} (hij : R i = R j) :
    clsN n R i = clsN n R j := by
  unfold clsN
  rw [classMembers_congr hij]

theorem minCl_congr {n : Nat} {R : Nat → Nat} {i j : Nat} (hij : R i = R j)
    (hi : i < n) : minCl n R i = minCl n R j := by
  unfold minCl
  rw [classMembers_congr (n := n) hij]
  cases hcl : classMembers n R j with
  | nil =>
    have hmem : i ∈ classMembers n R j := mem_classMembers.mpr ⟨hi, hij⟩
    rw [hcl] at hmem
    exact absurd hmem (List.not_mem_nil i)
  | cons h t => rfl

theorem clsN_pos {n : Nat} {R : Nat → Nat} {i : Nat} (hi : i < n) :
    0 < clsN n R i := by
  unfold clsN
  exact List.length_pos.mpr (List.ne_nil_of_mem (self_mem_classMembers hi))

theorem exists_earlier_iff {n : Nat} {R : Nat → Nat} {i m : Nat}
    (hi : i < n) (hm : m ≤ n) :
    (∃ j, j < m ∧ R j = R i) ↔ minCl n R i < m := by
  constructor
  · intro hj
    obtain ⟨j, hjm, hjr⟩ := hj
    have hjmem : j ∈ classMembers n R i := mem_classMembers.mpr ⟨by omega, hjr⟩
    have := minCl_le_mem hjmem hi
    omega
  · intro hlt
    exact ⟨minCl n R i, hlt, minCl_same hi⟩

theorem leadCount_succ {n : Nat} {R : Nat → Nat} (m : Nat) :
    leadCount n R (m + 1) =
      leadCount n R m + (if isLeadB n R m then 1 else 0) := by
  unfold leadCount
  rw [List.range_succ, List.filter_append]
  cases h : isLeadB n R m <;> simp [List.filter, h]

theorem leadCount_strict {n : Nat} {R : Nat → Nat} {a m : Nat} (ham : a < m)
    (hl : isLeadB n R a = true) : leadCount n R a < leadCount n R m := by
  have key : ∀ m2, leadCount n R a < leadCount n R (a + 1 + m2) := by
    intro m2
    induction m2 with
    | zero =>
      have h1 := leadCount_succ (n := n) (R := R) a
      rw [hl] at h1
      have h1' : leadCount n R (a + 1) = leadCount n R a + 1 := by
        simpa using h1
      have h0 : a + 1 + 0 = a + 1 := rfl
      rw [h0, h1']
      omega
    | succ m2 ih =>
      have h1 := leadCount_succ (n := n) (R := R) (a + 1 + m2)
      have h2 : a + 1 + (m2 + 1) = (a + 1 + m2) + 1 := by omega
      rw [h2, h1]
      split <;> omega
  have hm2 : m = a + 1 + (m - a - 1) := by omega
  rw [hm2]
  exact key _

theorem minCl_isLead {n : Nat} {R : Nat → Nat} {i : Nat} (hi : i < n)
    (hbig : 1 < clsN n R i) : isLeadB n R (minCl n R i) = true := by
  unfold isLeadB
  have h1 : minCl n R (minCl n R i) = minCl n R i :=
    minCl_congr (minCl_same hi) (minCl_lt hi)
  have h2 : clsN n R (minCl n R i) = clsN n R i := clsN_congr (minCl_same hi)
  rw [h1, h2]
  simp [hbig]

/-- The canonical identifiers depend only on the partition induced by `R`,
not on the choice of representatives. -/
theorem canonIds_congr {n : Nat} {R R2 : Nat → Nat}
    (h : ∀ i j, i < n → j < n → (R i = R j ↔ R2 i = R2 j)) :
    canonIds n R = canonIds n R2 := by
  have hcm : ∀ i, i < n → classMembers n R i = classMembers n R2 i := by
    intro i hi
    unfold classMembers
    apply List.filter_congr
    intro x hx
    exact decide_eq_decide.mpr (h x i (List.mem_range.mp hx) hi)
  have hcls : ∀ i, i < n → clsN n R i = clsN n R2 i := by
    intro i hi
    unfold clsN
    rw [hcm i hi]
  have hmin : ∀ i, i < n → minCl n R i = minCl n R2 i := by
    intro i hi
    unfold minCl
    rw [hcm i hi]
  have hlead : ∀ m, m ≤ n → leadCount n R m = leadCount n R2 m := by
    intro m hm
    unfold leadCount
    congr 1
    apply List.filter_congr
    intro x hx
    have hxlt : x < n := by
      have := List.mem_range.mp hx
      omega
    unfold isLeadB
    rw [hmin x hxlt, hcls x hxlt]
  unfold canonIds
  apply List.map_congr_left
  intro i hi
  have hilt : i < n := List.mem_range.mp hi
  unfold canonId
  rw [hcls i hilt, hmin i hilt]
  by_cases hbig : 1 < clsN n R2 i
  · rw [if_pos hbig, if_pos hbig, hlead (minCl n R2 i)
      (by have := minCl_lt (R := R2) hilt; omega)]
  · rw [if_neg hbig, if_neg hbig]

/-! ### The cluster-assignment pass of `detect_duplicates` (lines 88-97) -/

/-- One step of `for i in range(len(df)): counts[dsu.find(i)] =
counts.get(dsu.find(i), 0)+1`.  The Python line calls `dsu.find(i)` twice
(once for the read, once for the write key), each with path compression;
the counts dict is modelled as a total function with default `0`. -/
def countsStep (st : DSU × (Nat → Nat)) (i : Nat) : DSU × (Nat → Nat) :=
  let d1 := (st.1.find i).1
  let r1 := (st.1.find i).2
  let v := st.2 r1 + 1
  let d2 := (d1.find i).1
  let r2 := (d1.find i).2
  (d2, fun x => if x = r2 then v else st.2 x)

def countsPhase (d : DSU) : DSU × (Nat → Nat) :=
  (List.range d.parent.length).foldl countsStep (d, fun _ => 0)

/-- State of the id-assignment loop: the DSU (mutated by `find`), the
`cluster_map` dict (as a partial function), `cluster_counter`, and the
`cluster_ids` list (initialized to `-1`). -/
structure AState where
  dsu : DSU
  cmap : Nat → Option Nat
  ctr : Nat
  ids : List Int

/-- One step of the second loop of `detect_duplicates`. -/
def assignStep (counts : Nat → Nat) (st : AState) (i : Nat) : AState :=
  let d1 := (st.dsu.find i).1
  let root := (st.dsu.find i).2
  if 1 < counts root then
    match st.cmap root with
    | some c => ⟨d1, st.cmap, st.ctr, st.ids.set i (Int.ofNat c)⟩
    | none => ⟨d1, fun x => if x = root then some st.ctr else st.cmap x,
        st.ctr + 1, st.ids.set i (Int.ofNat st.ctr)⟩
  else ⟨d1, st.cmap, st.ctr, st.ids⟩

/-- The whole cluster-id computation from a post-union DSU (lines 88-97). -/
def clusterAssign (d : DSU) : List Int :=
  ((List.range d.parent.length).foldl (assignStep (countsPhase d).2)
    ⟨(countsPhase d).1, fun _ => none, 0,
      List.replicate d.parent.length (-1)⟩).ids

theorem foldl_range_succ {α : Type} (f : α → Nat → α) (init : α) (m : Nat) :
    (List.range (m + 1)).foldl f init = f ((List.range m).foldl f init) m := by
  rw [List.range_succ, List.foldl_append]
  rfl

/-- The counts loop computes the exact class cardinalities and does not
change any root. -/
theorem countsPhase_spec {d : DSU} (hw : Wf d) :
    Wf (countsPhase d).1 ∧
    (countsPhase d).1.parent.length = d.parent.length ∧
    (∀ x, x < d.parent.length →
      rootOf (countsPhase d).1.parent x = rootOf d.parent x) ∧
    (∀ r, (countsPhase d).2 r =
      ((List.range d.parent.length).filter
        (fun i => decide (rootOf d.parent i = r))).length) := by
  have key : ∀ m, m ≤ d.parent.length →
      Wf ((List.range m).foldl countsStep (d, fun _ => 0)).1 ∧
      ((List.range m).foldl countsStep (d, fun _ => 0)).1.parent.length =
        d.parent.length ∧
      (∀ x, x < d.parent.length →
        rootOf ((List.range m).foldl countsStep (d, fun _ => 0)).1.parent x =
          rootOf d.parent x) ∧
      (∀ r, ((List.range m).foldl countsStep (d, fun _ => 0)).2 r =
        ((List.range m).filter
          (fun i => decide (rootOf d.parent i = r))).length) := by
    intro m
    induction m with
    | zero =>
      intro _
      exact ⟨hw, rfl, fun x _ => rfl, fun r => rfl⟩
    | succ m ih =>
      intro hm1
      obtain ⟨hwm, hlenm, hpresm, hcm⟩ := ih (by omega)
      rw [foldl_range_succ]
      set st := (List.range m).foldl countsStep (d, fun _ => 0) with hst
      have hmlt : m < st.1.parent.length := by rw [hlenm]; omega
      obtain ⟨hr1, hw1, hlen1, hsz1, hpres1⟩ := DSU.find_spec hwm hmlt
      have hmlt1 : m < (st.1.find m).1.parent.length := by
        rw [hlen1]; exact hmlt
      obtain ⟨hr2, hw2, hlen2, hsz2, hpres2⟩ := DSU.find_spec hw1 hmlt1
      have hr1v : (st.1.find m).2 = rootOf d.parent m := by
        rw [hr1]
        exact hpresm m (by omega)
      have hr2v : ((st.1.find m).1.find m).2 = rootOf d.parent m := by
        rw [hr2, hpres1 m hmlt, hpresm m (by omega)]
      have hstep : countsStep st m =
          (((st.1.find m).1.find m).1,
            fun x => if x = ((st.1.find m).1.find m).2
              then st.2 ((st.1.find m).2) + 1 else st.2 x) := rfl
      rw [hstep]
      refine ⟨hw2, ?_, ?_, ?_⟩
      · rw [hlen2, hlen1, hlenm]
      · intro x hx
        have hx1 : x < st.1.parent.length := by rw [hlenm]; exact hx
        have hx2 : x < (st.1.find m).1.parent.length := by rw [hlen1]; exact hx1
        rw [hpres2 x hx2, hpres1 x hx1, hpresm x hx]
      · intro r
        show (if r = ((st.1.find m).1.find m).2
            then st.2 ((st.1.find m).2) + 1 else st.2 r) =
          ((List.range (m + 1)).filter
            (fun i => decide (rootOf d.parent i = r))).length
        rw [List.range_succ, List.filter_append]
        by_cases hrm : rootOf d.parent m = r
        · have hcond : r = ((st.1.find m).1.find m).2 := by rw [hr2v, hrm]
          have hfilt : [m].filter (fun i => decide (rootOf d.parent i = r)) =
              [m] := by
            simp [List.filter, hrm]
          rw [if_pos hcond, hfilt, hr1v, hrm, hcm r]
          simp
        · have hcond : ¬ (r = ((st.1.find m).1.find m).2) := by
            rw [hr2v]
            exact fun h => hrm h.symm
          have hfilt : [m].filter (fun i => decide (rootOf d.parent i = r)) =
              [] := by
            simp [List.filter, hrm]
          rw [if_neg hcond, hfilt, hcm r]
          simp
  have hfin := key d.parent.length (le_refl _)
  exact ⟨hfin.1, hfin.2.1, hfin.2.2.1, hfin.2.2.2⟩

/-- Loop invariant of the id-assignment pass after scanning `m` records. -/
def AInv (n : Nat) (R : Nat → Nat) (counts : Nat → Nat) (m : Nat)
    (st : AState) : Prop :=
  Wf st.dsu ∧ st.dsu.parent.length = n ∧
  (∀ x, x < n → rootOf st.dsu.parent x = R x) ∧
  st.ids.length = n ∧
  (∀ j, j < n → st.ids.getD j (-1) =
    if j < m then canonId n R j else -1) ∧
  st.ctr = leadCount n R m ∧
  (∀ j, j < m → 1 < clsN n R j →
    st.cmap (R j) = some (leadCount n R (minCl n R j))) ∧
  (∀ r, (∀ j, j < m → ¬(R j = r ∧ 1 < clsN n R j)) → st.cmap r = none)

theorem assignStep_inv {n : Nat} {R counts : Nat → Nat} {m : Nat}
    {st : AState}
    (hcnt : ∀ i, i < n → counts (R i) = clsN n R i)
    (hm : m < n) (hinv : AInv n R counts m st) :
    AInv n R counts (m + 1) (assignStep counts st m) := by
  obtain ⟨hwst, hlst, hRst, hidl, hidv, hctr, hcm1, hcm2⟩ := hinv
  have hmlt : m < st.dsu.parent.length := by rw [hlst]; exact hm
  obtain ⟨hrt, hw1, hlen1, hsz1, hpres1⟩ := DSU.find_spec hwst hmlt
  have hrootv : (st.dsu.find m).2 = R m := by
    rw [hrt]
    exact hRst m hm
  have hcntv : counts ((st.dsu.find m).2) = clsN n R m := by
    rw [hrootv]
    exact hcnt m hm
  have hdsu1 : Wf (st.dsu.find m).1 ∧ (st.dsu.find m).1.parent.length = n ∧
      (∀ x, x < n → rootOf (st.dsu.find m).1.parent x = R x) := by
    refine ⟨hw1, hlen1.trans hlst, ?_⟩
    intro x hx
    have hx' : x < st.dsu.parent.length := by rw [hlst]; exact hx
    rw [hpres1 x hx', hRst x hx]
  by_cases hbig : 1 < clsN n R m
  · have hcond : 1 < counts ((st.dsu.find m).2) := by rw [hcntv]; exact hbig
    rcases hcmval : st.cmap (R m) with _ | c
    · -- first encounter of this class: a fresh id is handed out
      have hstep : assignStep counts st m =
          ⟨(st.dsu.find m).1,
            fun x => if x = R m then some st.ctr else st.cmap x,
            st.ctr + 1, st.ids.set m (Int.ofNat st.ctr)⟩ := by
        unfold assignStep
        rw [if_pos hcond, hrootv, hcmval]
      have hnoprev : ∀ j, j < m → R j ≠ R m := by
        intro j hj hjm
        have hbigj : 1 < clsN n R j := by
          rw [clsN_congr hjm]
          exact hbig
        have := hcm1 j hj hbigj
        rw [hjm, hcmval] at this
        exact Option.noConfusion this
      have hminm : minCl n R m = m := by
        have h1 : ¬ (minCl n R m < m) := by
          intro hlt
          have := (exists_earlier_iff hm (by omega)).mpr hlt
          obtain ⟨j, hj1, hj2⟩ := this
          exact hnoprev j hj1 hj2
        have h2 := minCl_le (n := n) (R := R) hm
        omega
      have hlead : isLeadB n R m = true := by
        unfold isLeadB
        simp [hminm, hbig]
      rw [hstep]
      refine ⟨hdsu1.1, hdsu1.2.1, hdsu1.2.2, ?_, ?_, ?_, ?_, ?_⟩
      · show (st.ids.set m (Int.ofNat st.ctr)).length = n
        rw [List.length_set]
        exact hidl
      · intro j hj
        show (st.ids.set m (Int.ofNat st.ctr)).getD j (-1) = _
        by_cases hjm : j = m
        · rw [hjm, getD_set_self (by rw [hidl]; exact hm)]
          rw [if_pos (by omega : m < m + 1)]
          unfold canonId
          rw [if_pos hbig, hminm, hctr]
        · rw [getD_set_ne hjm, hidv j hj]
          by_cases hjlt : j < m
          · rw [if_pos hjlt, if_pos (by omega)]
          · rw [if_neg hjlt, if_neg (by omega)]
      · show st.ctr + 1 = leadCount n R (m + 1)
        rw [leadCount_succ, hlead, hctr]
        simp
      · intro j hj hbigj
        show (if R j = R m then some st.ctr else st.cmap (R j)) = _
        by_cases hjm : j = m
        · rw [hjm, if_pos rfl, hctr, hminm]
        · have hjlt : j < m := by omega
          rw [if_neg (hnoprev j hjlt), hcm1 j hjlt hbigj]
      · intro r hr
        show (if r = R m then some st.ctr else st.cmap r) = none
        have hrm : ¬ (r = R m) := by
          intro he
          exact (hr m (by omega)) ⟨he.symm ▸ rfl, hbig⟩
        rw [if_neg hrm]
        exact hcm2 r (fun j hj => hr j (by omega))
    · -- the class was met before: reuse the recorded id
      have hstep : assignStep counts st m =
          ⟨(st.dsu.find m).1, st.cmap, st.ctr,
            st.ids.set m (Int.ofNat c)⟩ := by
        unfold assignStep
        rw [if_pos hcond, hrootv, hcmval]
      have hprev : ∃ j, j < m ∧ R j = R m ∧ 1 < clsN n R j := by
        by_contra hcon
        push_neg at hcon
        have : st.cmap (R m) = none := by
          apply hcm2
          intro j hj hbad
          have := hcon j hj hbad.1
          omega
        rw [hcmval] at this
        exact Option.noConfusion this
      obtain ⟨j0, hj0m, hj0r, hj0big⟩ := hprev
      have hminlt : minCl n R m < m :=
        (exists_earlier_iff hm (by omega)).mp ⟨j0, hj0m, hj0r⟩
      have hcval : c = leadCount n R (minCl n R m) := by
        have h1 := hcm1 j0 hj0m hj0big
        rw [hj0r, hcmval] at h1
        have h2 : minCl n R j0 = minCl n R m :=
          minCl_congr hj0r (by omega)
        rw [h2] at h1
        exact (Option.some.injEq _ _).mp h1.symm |>.symm
      have hlead : isLeadB n R m = false := by
        unfold isLeadB
        have : ¬ (minCl n R m = m) := by omega
        simp [this]
      rw [hstep]
      refine ⟨hdsu1.1, hdsu1.2.1, hdsu1.2.2, ?_, ?_, ?_, ?_, ?_⟩
      · show (st.ids.set m (Int.ofNat c)).length = n
        rw [List.length_set]
        exact hidl
      · intro j hj
        show (st.ids.set m (Int.ofNat c)).getD j (-1) = _
        by_cases hjm : j = m
        · rw [hjm, getD_set_self (by rw [hidl]; exact hm), if_pos (by omega)]
          unfold canonId
          rw [if_pos hbig, hcval]
        · rw [getD_set_ne hjm, hidv j hj]
          by_cases hjlt : j < m
          · rw [if_pos hjlt, if_pos (by omega)]
          · rw [if_neg hjlt, if_neg (by omega)]
      · show st.ctr = leadCount n R (m + 1)
        rw [leadCount_succ, hlead, hctr]
        simp
      · intro j hj hbigj
        show st.cmap (R j) = _
        by_cases hjm : j = m
        · rw [hjm, hcmval, hcval]
        · exact hcm1 j (by omega) hbigj
      · intro r hr
        show st.cmap r = none
        exact hcm2 r (fun j hj => hr j (by omega))
  · have hcond : ¬ (1 < counts ((st.dsu.find m).2)) := by
      rw [hcntv]
      exact hbig
    have hstep : assignStep counts st m =
        ⟨(st.dsu.find m).1, st.cmap, st.ctr, st.ids⟩ := by
      unfold assignStep
      rw [if_neg hcond]
    have hlead : isLeadB n R m = false := by
      unfold isLeadB
      simp [hbig]
    rw [hstep]
    refine ⟨hdsu1.1, hdsu1.2.1, hdsu1.2.2, hidl, ?_, ?_, ?_, ?_⟩
    · intro j hj
      show st.ids.getD j (-1) = _
      rw [hidv j hj]
      by_cases hjm : j = m
      · rw [hjm, if_neg (by omega), if_pos (by omega)]
        unfold canonId
        rw [if_neg hbig]
      · by_cases hjlt : j < m
        · rw [if_pos hjlt, if_pos (by omega)]
        · rw [if_neg hjlt, if_neg (by omega)]
    · show st.ctr = leadCount n R (m + 1)
      rw [leadCount_succ, hlead, hctr]
      simp
    · intro j hj hbigj
      show st.cmap (R j) = _
      by_cases hjm : j = m
      · rw [hjm] at hbigj
        exact absurd hbigj hbig
      · exact hcm1 j (by omega) hbigj
    · intro r hr
      show st.cmap r = none
      exact hcm2 r (fun j hj => hr j (by omega))

theorem getD_replicate {α : Type} {n j : Nat} {v : α} :
    (List.replicate n v).getD j v = v := by
  induction n generalizing j with
  | zero => rfl
  | succ n ih =>
    cases j with
    | zero => rfl
    | succ j => exact ih

theorem list_ext_getD {α : Type} (d : α) :
    ∀ (l1 l2 : List α), l1.length = l2.length →
      (∀ j, j < l1.length → l1.getD j d = l2.getD j d) → l1 = l2 := by
  intro l1
  induction l1 with
  | nil =>
    intro l2 hlen _
    cases l2 with
    | nil => rfl
    | cons y ys => simp at hlen
  | cons x xs ih =>
    intro l2 hlen hval
    cases l2 with
    | nil => simp at hlen
    | cons y ys =>
      have hhead : x = y := hval 0 (by simp)
      have htail : xs = ys := by
        apply ih ys (by simpa using hlen)
        intro j hj
        exact hval (j + 1) (by simpa using Nat.succ_lt_succ hj)
      rw [hhead, htail]

theorem canonIds_length {n : Nat} {R : Nat → Nat} :
    (canonIds n R).length = n := by
  unfold canonIds
  simp

theorem canonIds_getD {n j : Nat} {R : Nat → Nat} (hj : j < n) :
    (canonIds n R).getD j (-1) = canonId n R j := by
  unfold canonIds
  simp [List.getD_eq_getElem?_getD, List.getElem?_map, List.getElem?_range hj]

/-- Master characterization: the cluster-assignment pass computes exactly
the canonical identifiers of the partition of the input forest. -/
theorem clusterAssign_eq_canon {d : DSU} (hw : Wf d) :
    clusterAssign d =
      canonIds d.parent.length (fun x => rootOf d.parent x) := by
  obtain ⟨hwc, hlenc, hpresc, hcfun⟩ := countsPhase_spec hw
  have hcnt : ∀ i, i < d.parent.length →
      (countsPhase d).2 ((fun x => rootOf d.parent x) i) =
        clsN d.parent.length (fun x => rootOf d.parent x) i := by
    intro i _
    exact hcfun (rootOf d.parent i)
  have hinv0 : AInv d.parent.length (fun x => rootOf d.parent x)
      (countsPhase d).2 0
      ⟨(countsPhase d).1, fun _ => none, 0,
        List.replicate d.parent.length (-1)⟩ := by
    refine ⟨hwc, hlenc, hpresc, by simp, ?_, rfl, ?_, ?_⟩
    · intro j hj
      show (List.replicate d.parent.length (-1 : Int)).getD j (-1) = _
      rw [getD_replicate, if_neg (by omega)]
    · intro j hj
      omega
    · intro r _
      rfl
  have hfold : ∀ m, m ≤ d.parent.length →
      AInv d.parent.length (fun x => rootOf d.parent x) (countsPhase d).2 m
        ((List.range m).foldl (assignStep (countsPhase d).2)
          ⟨(countsPhase d).1, fun _ => none, 0,
            List.replicate d.parent.length (-1)⟩) := by
    intro m
    induction m with
    | zero => intro _; exact hinv0
    | succ m ih =>
      intro hm1
      rw [foldl_range_succ]
      exact assignStep_inv hcnt (by omega) (ih (by omega))
  have hfin := hfold d.parent.length (le_refl _)
  obtain ⟨_, _, _, hidl, hidv, _, _, _⟩ := hfin
  unfold clusterAssign
  apply list_ext_getD (-1)
  · rw [canonIds_length]
    exact hidl
  · intro j hj
    rw [hidl] at hj
    rw [hidv j hj, if_pos hj, canonIds_getD hj]

/-! ### Field normalization helpers (lines 27-56 of the source) -/

/-- Python `\s` (ASCII range): space, tab, newline, return, vertical tab,
form feed. -/
def pySpace (c : Char) : Bool :=
  c = ' ' || c = '\t' || c = '\n' || c = '\r' || c = '\x0b' || c = '\x0c'

/-- Python `\w` (ASCII model): letters, digits and the underscore. -/
def pyWord (c : Char) : Bool := c.isAlphanum || c = '_'

/-- `re.sub(r"[^\w\s]", " ", s)`: every character that is neither a word
character nor whitespace becomes one space. -/
def subNonWord (l : List Char) : List Char :=
  l.map (fun c => if pyWord c || pySpace c then c else ' ')

/-- `re.sub(r"\s+", " ", s)`: each maximal whitespace run becomes one
space. -/
def collapseSpace : List Char → List Char
  | [] => []
  | [c] => if pySpace c then [' '] else [c]
  | c :: d :: l =>
    if pySpace c && pySpace d then collapseSpace (d :: l)
    else (if pySpace c then ' ' else c) :: collapseSpace (d :: l)

/-- Drop trailing whitespace (the right half of `str.strip()`). -/
def stripRight : List Char → List Char
  | [] => []
  | c :: l =>
    match stripRight l with
    | [] => if pySpace c then [] else [c]
    | l2 => c :: l2

/-- `normalize_name` (lines 27-31): missing value check, lowercase,
replace non-word non-space characters by a space, collapse whitespace runs,
strip both ends. -/
def normalize_name (name : Option String) : String :=
  match name with
  | none => ""
  | some s =>
    String.mk (stripRight ((collapseSpace (subNonWord
      (s.toList.map Char.toLower))).dropWhile pySpace))

/-- `normalize_gender` (lines 33-39). -/
def normalize_gender (g : Option String) : String :=
  match g with
  | none => ""
  | some g0 =>
    let s := String.mk ((stripRight (g0.toList.dropWhile pySpace)).map
      Char.toLower)
    if s = "m" ∨ s = "male" ∨ s = "man" then "male"
    else if s = "f" ∨ s = "female" ∨ s = "woman" then "female"
    else if s = "o" ∨ s = "other" ∨ s = "non-binary" ∨ s = "nb" then "other"
    else s

/-- Soundex digit of a letter; `none` for letters outside every group
(the `for ... else` arm of the source appends `"0"`). -/
def sdxCode (c : Char) : Option Char :=
  if c = 'B' ∨ c = 'F' ∨ c = 'P' ∨ c = 'V' then some '1'
  else if c = 'C' ∨ c = 'G' ∨ c = 'J' ∨ c = 'K' ∨ c = 'Q' ∨ c = 'S' ∨
    c = 'X' ∨ c = 'Z' then some '2'
  else if c = 'D' ∨ c = 'T' then some '3'
  else if c = 'L' then some '4'
  else if c = 'M' ∨ c = 'N' then some '5'
  else if c = 'R' then some '6'
  else none

/-- The loop over `name[1:]`; `acc` is the reversed `sndx` accumulator. -/
def sdxLoop (acc : List Char) : List Char → List Char
  | [] => acc
  | c :: cs =>
    match sdxCode c with
    | some code =>
      if code ≠ acc.headD ' ' then sdxLoop (code :: acc) cs
      else sdxLoop acc cs
    | none => sdxLoop ('0' :: acc) cs

/-- `soundex` (lines 41-56): uppercase, seed with the first character,
append group digits (skipping immediate repeats), drop the zeros, pad with
`"000"` and truncate to four characters; empty input gives `""`. -/
def soundex (name : String) : String :=
  if name = "" then ""
  else
    match name.toList.map Char.toUpper with
    | [] => ""
    | c :: rest =>
      String.mk ((((sdxLoop [c] rest).reverse.filter
        (fun x => x ≠ '0')) ++ ['0', '0', '0']).take 4)

/-- `n.split(" ")[0] if n else ""` (line 112). -/
def firstTok (n : String) : String :=
  if n = "" then "" else String.mk (n.toList.takeWhile (fun c => c ≠ ' '))

/-! ### `detect_duplicates` (lines 71-97) -/

/-- The columns of the frame that `detect_duplicates` reads: normalized
name, parsed DOB (`none` = `NaT`, a date is modelled by its ISO string),
normalized gender, soundex code. -/
structure NRec where
  name_norm : String
  dob : Option String
  gender : String
  sdx : String
deriving DecidableEq

/-- Block key (line 75-76): `(dob_key, gender, sx[:2])`. -/
def blockKey (r : NRec) : Option String × String × String :=
  (r.dob, r.gender, r.sdx.take 2)

/-- Append an index to its key's bucket, keeping dict insertion order. -/
def addToBlocks (bs : List ((Option String × String × String) × List Nat))
    (k : Option String × String × String) (i : Nat) :
    List ((Option String × String × String) × List Nat) :=
  match bs with
  | [] => [(k, [i])]
  | (k2, l) :: rest =>
    if k2 = k then (k2, l ++ [i]) :: rest
    else (k2, l) :: addToBlocks rest k i

/-- The blocking index (lines 73-76). -/
def buildBlocks (rs : List NRec) :
    List ((Option String × String × String) × List Nat) :=
  rs.enum.foldl (fun bs p => addToBlocks bs (blockKey p.2) p.1) []

def NAME_SIMILARITY_THRESHOLD : Nat := 65

/-- Inner loop `for j in range(i+1, ...)` of the union pass. -/
def unionRow (score : String → String → Nat) (x : String × Nat) :
    DSU → List (String × Nat) → DSU
  | d, [] => d
  | d, y :: rest =>
    unionRow score x
      (if NAME_SIMILARITY_THRESHOLD ≤ score x.1 y.1
        then d.union x.2 y.2 else d) rest

/-- Outer loop `for i in range(...)` of the union pass within one block. -/
def unionBlock (score : String → String → Nat) :
    DSU → List (String × Nat) → DSU
  | d, [] => d
  | d, x :: rest => unionBlock score (unionRow score x d rest) rest

/-- The DSU after all within-block unions (lines 78-86); the rapidfuzz
`partial_ratio` matrix is abstracted by `score`. -/
def dsuFinal (score : String → String → Nat) (rs : List NRec) : DSU :=
  (buildBlocks rs).foldl
    (fun d kb =>
      if kb.2.length < 2 then d
      else unionBlock score d
        (kb.2.map (fun i => ((rs.map NRec.name_norm).getD i "", i))))
    (DSU.mk0 rs.length)

/-- `detect_duplicates` (lines 71-97): union pass followed by the
cluster-id assignment pass; the returned `Int64` series is a `List Int`
in which unclustered records keep the `-1` initializer. -/
def detect_duplicates (score : String → String → Nat) (rs : List NRec) :
    List Int :=
  clusterAssign (dsuFinal score rs)

/-! ### `process_file` observables (lines 99-142) -/

/-- First-occurrence deduplication; pandas `nunique` is its length. -/
def dedupSeen (seen : List Int) : List Int → List Int
  | [] => []
  | a :: l =>
    if a ∈ seen then dedupSeen seen l else a :: dedupSeen (a :: seen) l

def dedupFirst (l : List Int) : List Int := dedupSeen [] l

/-- `Is_Duplicate = Cluster_ID.notna() & (Cluster_ID >= 0)` (line 119);
`notna` is identically true on the embedded non-null `Int64` column. -/
def is_dup_col (ids : List Int) : List Bool :=
  ids.map (fun c => decide (0 ≤ c))

/-- The run summary (lines 131-135): `Total_Records`,
`Duplicate_Records = Is_Duplicate.sum()`, and
`Duplicate_Clusters = Cluster_ID.dropna().nunique()` (that `dropna` is a
no-op on the non-null column). -/
def summaryOf (ids : List Int) : Nat × Nat × Nat :=
  (ids.length,
   ((is_dup_col ids).filter (fun b => b)).length,
   (dedupFirst ids).length)

/-- A raw input row; other columns are passthrough. -/
structure RawRec where
  name : Option String
  dob : Option String
  gender : Option String

/-- The normalization columns of `process_file` (lines 109-112); the
external pandas date parser is the parameter `parseD` (`none` = `NaT`). -/
def mkRec (parseD : Option String → Option String) (r : RawRec) : NRec :=
  { name_norm := normalize_name (some (r.name.getD ""))
  , dob := parseD r.dob
  , gender := normalize_gender (some (r.gender.getD ""))
  , sdx := soundex (firstTok (normalize_name (some (r.name.getD "")))) }

/-- Cluster-id column of the pipeline (line 118). -/
def processIds (score : String → String → Nat)
    (parseD : Option String → Option String) (raws : List RawRec) :
    List Int :=
  detect_duplicates score (raws.map (mkRec parseD))

/-- The emitted run summary of the pipeline. -/
def processSummary (score : String → String → Nat)
    (parseD : Option String → Option String) (raws : List RawRec) :
    Nat × Nat × Nat :=
  summaryOf (processIds score parseD raws)

/-- Number of records in the same final disjoint set as record `i`. -/
def classSize (d : DSU) (i : Nat) : Nat :=
  clsN d.parent.length (fun x => rootOf d.parent x) i

/-! ### Blocking partition lemmas -/

/-- Index `i` sits in the bucket of key `k`. -/
def InBlocks (bs : List ((Option String × String × String) × List Nat))
    (k : Option String × String × String) (i : Nat) : Prop :=
  ∃ l, (k, l) ∈ bs ∧ i ∈ l

theorem addToBlocks_join_perm
    (bs : List ((Option String × String × String) × List Nat))
    (k : Option String × String × String) (i : Nat) :
    List.Perm (((addToBlocks bs k i).map Prod.snd).flatten)
      ((bs.map Prod.snd).flatten ++ [i]) := by
  induction bs with
  | nil => simp [addToBlocks]
  | cons b rest ih =>
    obtain ⟨k2, l⟩ := b
    by_cases hk : k2 = k
    · simp only [addToBlocks, if_pos hk, List.map_cons, List.flatten_cons,
        List.append_assoc]
      exact List.Perm.append_left l List.perm_append_comm
    · simp only [addToBlocks, if_neg hk, List.map_cons, List.flatten_cons,
        List.append_assoc]
      exact List.Perm.append_left l ih

theorem blocks_fold_join_perm (ps : List (Nat × NRec)) :
    ∀ (bs : List ((Option String × String × String) × List Nat)),
    List.Perm
      (((ps.foldl (fun bs p => addToBlocks bs (blockKey p.2) p.1) bs).map
        Prod.snd).flatten)
      ((bs.map Prod.snd).flatten ++ ps.map Prod.fst) := by
  induction ps with
  | nil => intro bs; simp
  | cons p ps ih =>
    intro bs
    rw [List.foldl_cons]
    have h1 := ih (addToBlocks bs (blockKey p.2) p.1)
    have h2 := (addToBlocks_join_perm bs (blockKey p.2) p.1).append_right
      (ps.map Prod.fst)
    have h3 := h1.trans h2
    have h4 : ((bs.map Prod.snd).flatten ++ [p.1]) ++ ps.map Prod.fst =
        (bs.map Prod.snd).flatten ++ ((p :: ps).map Prod.fst) := by
      rw [List.append_assoc]
      rfl
    rw [h4] at h3
    exact h3

/-- The blocking index partitions the record index set: the concatenation
of all bucket member lists is a permutation of `range n`. -/
theorem buildBlocks_partition (rs : List NRec) :
    List.Perm (((buildBlocks rs).map Prod.snd).flatten)
      (List.range rs.length) := by
  have h := blocks_fold_join_perm rs.enum []
  unfold buildBlocks
  have he : rs.enum.map Prod.fst = List.range rs.length :=
    List.enum_map_fst rs
  rw [he] at h
  simpa using h

theorem inBlocks_add_self
    (bs : List ((Option String × String × String) × List Nat))
    (k : Option String × String × String) (i : Nat) :
    InBlocks (addToBlocks bs k i) k i := by
  induction bs with
  | nil => exact ⟨[i], by simp [addToBlocks]⟩
  | cons b rest ih =>
    obtain ⟨k2, l⟩ := b
    by_cases hk : k2 = k
    · refine ⟨l ++ [i], ?_, by simp⟩
      simp [addToBlocks, if_pos hk, hk]
    · obtain ⟨l2, hl2, hil2⟩ := ih
      exact ⟨l2, by simp [addToBlocks, if_neg hk, hl2], hil2⟩

theorem inBlocks_add_mono
    {bs : List ((Option String × String × String) × List Nat)}
    {k2 : Option String × String × String} {i2 : Nat}
    (h : InBlocks bs k2 i2)
    (k : Option String × String × String) (i : Nat) :
    InBlocks (addToBlocks bs k i) k2 i2 := by
  induction bs with
  | nil =>
    obtain ⟨l, hl, _⟩ := h
    simp at hl
  | cons b rest ih =>
    obtain ⟨kb, lb⟩ := b
    obtain ⟨l, hl, hil⟩ := h
    rcases List.mem_cons.mp hl with h1 | h1
    · have hka : k2 = kb := (Prod.mk.injEq .. ▸ h1).1
      have hlb : l = lb := (Prod.mk.injEq .. ▸ h1).2
      by_cases hk : kb = k
      · refine ⟨lb ++ [i], ?_, ?_⟩
        · simp [addToBlocks, if_pos hk, hka]
        · rw [← hlb]
          exact List.mem_append_left _ hil
      · refine ⟨l, ?_, hil⟩
        rw [hka, hlb]
        simp [addToBlocks, if_neg hk]
    · by_cases hk : kb = k
      · exact ⟨l, by simp [addToBlocks, if_pos hk, h1], hil⟩
      · obtain ⟨l3, hl3, hil3⟩ := ih ⟨l, h1, hil⟩
        exact ⟨l3, by simp [addToBlocks, if_neg hk, hl3], hil3⟩

theorem inBlocks_fold_mono (ps : List (Nat × NRec)) :
    ∀ {bs : List ((Option String × String × String) × List Nat)}
      {k : Option String × String × String} {i : Nat},
    InBlocks bs k i →
    InBlocks (ps.foldl (fun bs p => addToBlocks bs (blockKey p.2) p.1) bs)
      k i := by
  induction ps with
  | nil => intro bs k i h; exact h
  | cons p ps ih =>
    intro bs k i h
    rw [List.foldl_cons]
    exact ih (inBlocks_add_mono h _ _)

theorem inBlocks_fold_mem (ps : List (Nat × NRec)) :
    ∀ {bs : List ((Option String × String × String) × List Nat)}
      {i : Nat} {r : NRec}, (i, r) ∈ ps →
    InBlocks (ps.foldl (fun bs p => addToBlocks bs (blockKey p.2) p.1) bs)
      (blockKey r) i := by
  induction ps with
  | nil => intro bs i r h; simp at h
  | cons p ps ih =>
    intro bs i r h
    rcases List.mem_cons.mp h with h1 | h1
    · rw [List.foldl_cons, ← h1]
      exact inBlocks_fold_mono ps (inBlocks_add_self bs _ _)
    · rw [List.foldl_cons]
      exact ih h1

theorem mem_keys_addToBlocks
    {bs : List ((Option String × String × String) × List Nat)}
    {k k2 : Option String × String × String} {i : Nat} :
    k2 ∈ (addToBlocks bs k i).map Prod.fst ↔
      k2 ∈ bs.map Prod.fst ∨ k2 = k := by
  induction bs with
  | nil => simp [addToBlocks]
  | cons b rest ih =>
    obtain ⟨kb, lb⟩ := b
    by_cases hk : kb = k
    · simp [addToBlocks, if_pos hk, hk]
      tauto
    · simp only [addToBlocks, if_neg hk, List.map_cons, List.mem_cons, ih]
      tauto

theorem keys_nodup_addToBlocks
    {bs : List ((Option String × String × String) × List Nat)}
    (h : (bs.map Prod.fst).Nodup)
    (k : Option String × String × String) (i : Nat) :
    ((addToBlocks bs k i).map Prod.fst).Nodup := by
  induction bs with
  | nil => simp [addToBlocks]
  | cons b rest ih =>
    obtain ⟨kb, lb⟩ := b
    rw [List.map_cons, List.nodup_cons] at h
    by_cases hk : kb = k
    · simp only [addToBlocks, if_pos hk, List.map_cons, List.nodup_cons]
      exact ⟨h.1, h.2⟩
    · simp only [addToBlocks, if_neg hk, List.map_cons, List.nodup_cons]
      refine ⟨?_, ih h.2⟩
      intro hmem
      rcases mem_keys_addToBlocks.mp hmem with h1 | h1
      · exact h.1 h1
      · exact hk h1

theorem keys_nodup_fold (ps : List (Nat × NRec)) :
    ∀ {bs : List ((Option String × String × String) × List Nat)},
    (bs.map Prod.fst).Nodup →
    (((ps.foldl (fun bs p => addToBlocks bs (blockKey p.2) p.1) bs)).map
      Prod.fst).Nodup := by
  induction ps with
  | nil => intro bs h; exact h
  | cons p ps ih =>
    intro bs h
    rw [List.foldl_cons]
    exact ih (keys_nodup_addToBlocks h _ _)

theorem buildBlocks_keys_nodup (rs : List NRec) :
    (((buildBlocks rs)).map Prod.fst).Nodup := by
  unfold buildBlocks
  exact keys_nodup_fold rs.enum (by simp)

theorem assoc_unique
    {bs : List ((Option String × String × String) × List Nat)}
    (hnd : (bs.map Prod.fst).Nodup)
    {k : Option String × String × String} {l1 l2 : List Nat}
    (h1 : (k, l1) ∈ bs) (h2 : (k, l2) ∈ bs) : l1 = l2 := by
  induction bs with
  | nil => simp at h1
  | cons b rest ih =>
    obtain ⟨kb, lb⟩ := b
    rw [List.map_cons, List.nodup_cons] at hnd
    rcases List.mem_cons.mp h1 with ha | ha
    · rcases List.mem_cons.mp h2 with hb | hb
      · have e1 : l1 = lb := (Prod.mk.injEq .. ▸ ha).2
        have e2 : l2 = lb := (Prod.mk.injEq .. ▸ hb).2
        rw [e1, e2]
      · exfalso
        have ek : k = kb := (Prod.mk.injEq .. ▸ ha).1
        apply hnd.1
        rw [← ek]
        exact List.mem_map.mpr ⟨(k, l2), hb, rfl⟩
    · rcases List.mem_cons.mp h2 with hb | hb
      · exfalso
        have ek : k = kb := (Prod.mk.injEq .. ▸ hb).1
        apply hnd.1
        rw [← ek]
        exact List.mem_map.mpr ⟨(k, l1), ha, rfl⟩
      · exact ih hnd.2 ha hb

/-- Every record index lands in the bucket of its own block key. -/
theorem mem_buildBlocks (rs : List NRec) {i : Nat} (hi : i < rs.length) :
    InBlocks (buildBlocks rs) (blockKey (rs.get ⟨i, hi⟩)) i := by
  unfold buildBlocks
  apply inBlocks_fold_mem
  have : rs.enum.get ⟨i, by simpa using hi⟩ = (i, rs.get ⟨i, hi⟩) := by
    simp [List.getElem_enum]
  rw [← this]
  exact List.get_mem _ _ _

/-- Indices stored in the buckets are valid record indices. -/
theorem buildBlocks_mem_lt (rs : List NRec)
    {k : Option String × String × String} {l : List Nat}
    (hkl : (k, l) ∈ buildBlocks rs) {i : Nat} (hi : i ∈ l) :
    i < rs.length := by
  have hperm := buildBlocks_partition rs
  have hj : i ∈ ((buildBlocks rs).map Prod.snd).flatten := by
    apply List.mem_flatten.mpr
    exact ⟨l, List.mem_map_of_mem Prod.snd hkl, hi⟩
  have := hperm.mem_iff.mp hj
  exact List.mem_range.mp this

/-! ### First-occurrence deduplication lemmas -/

theorem mem_dedupSeen {x : Int} : ∀ (seen l : List Int),
    (x ∈ dedupSeen seen l ↔ (x ∈ l ∧ x ∉ seen)) := by
  intro seen l
  induction l generalizing seen with
  | nil => simp [dedupSeen]
  | cons a l ih =>
    by_cases ha : a ∈ seen
    · rw [show dedupSeen seen (a :: l) = dedupSeen seen l from by
        simp [dedupSeen, ha]]
      rw [ih seen]
      constructor
      · intro ⟨h1, h2⟩
        exact ⟨List.mem_cons_of_mem _ h1, h2⟩
      · intro ⟨h1, h2⟩
        rcases List.mem_cons.mp h1 with he | he
        · exact absurd (he ▸ ha) h2
        · exact ⟨he, h2⟩
    · rw [show dedupSeen seen (a :: l) = a :: dedupSeen (a :: seen) l from by
        simp [dedupSeen, ha]]
      rw [List.mem_cons, ih (a :: seen)]
      constructor
      · intro h
        rcases h with he | ⟨h1, h2⟩
        · refine ⟨he ▸ List.mem_cons_self a l, he ▸ ha⟩
        · refine ⟨List.mem_cons_of_mem _ h1, ?_⟩
          intro hx
          exact h2 (List.mem_cons_of_mem _ hx)
      · intro ⟨h1, h2⟩
        by_cases hxa : x = a
        · exact Or.inl hxa
        · refine Or.inr ⟨?_, ?_⟩
          · rcases List.mem_cons.mp h1 with he | he
            · exact absurd he hxa
            · exact he
          · intro hx
            rcases List.mem_cons.mp hx with he | he
            · exact hxa he
            · exact h2 he

theorem dedupSeen_append_one : ∀ (seen l : List Int) (a : Int),
    dedupSeen seen (l ++ [a]) =
      dedupSeen seen l ++ (if a ∈ seen ∨ a ∈ l then [] else [a]) := by
  intro seen l
  induction l generalizing seen with
  | nil =>
    intro a
    by_cases h : a ∈ seen
    · simp [dedupSeen, h]
    · simp [dedupSeen, h]
  | cons b l ih =>
    intro a
    by_cases hb : b ∈ seen
    · rw [List.cons_append,
        show dedupSeen seen (b :: (l ++ [a])) = dedupSeen seen (l ++ [a])
          from by simp [dedupSeen, hb],
        show dedupSeen seen (b :: l) = dedupSeen seen l
          from by simp [dedupSeen, hb],
        ih seen a]
      congr 1
      apply if_congr _ rfl rfl
      constructor
      · intro h
        rcases h with h | h
        · exact Or.inl h
        · exact Or.inr (List.mem_cons_of_mem _ h)
      · intro h
        rcases h with h | h
        · exact Or.inl h
        · rcases List.mem_cons.mp h with he | he
          · exact Or.inl (he ▸ hb)
          · exact Or.inr he
    · rw [List.cons_append,
        show dedupSeen seen (b :: (l ++ [a])) =
            b :: dedupSeen (b :: seen) (l ++ [a])
          from by simp [dedupSeen, hb],
        show dedupSeen seen (b :: l) = b :: dedupSeen (b :: seen) l
          from by simp [dedupSeen, hb],
        ih (b :: seen) a, List.cons_append]
      congr 2
      apply if_congr _ rfl rfl
      constructor
      · intro h
        rcases h with h | h
        · rcases List.mem_cons.mp h with he | he
          · exact Or.inr (he ▸ List.mem_cons_self b l)
          · exact Or.inl he
        · exact Or.inr (List.mem_cons_of_mem _ h)
      · intro h
        rcases h with h | h
        · exact Or.inl (List.mem_cons_of_mem _ h)
        · rcases List.mem_cons.mp h with he | he
          · exact Or.inl (he ▸ List.mem_cons_self b seen)
          · exact Or.inr he

/-- The non-sentinel canonical identifiers, read in ascending scan order
and deduplicated by first occurrence, are exactly `0, 1, ..., k-1`. -/
theorem canon_dedup (n : Nat) (R : Nat → Nat) :
    ∀ m, m ≤ n →
    dedupFirst (((List.range m).map (canonId n R)).filter
        (fun c => decide (0 ≤ c))) =
      (List.range (leadCount n R m)).map Int.ofNat := by
  intro m
  induction m with
  | zero => intro _; rfl
  | succ m ih =>
    intro hm1
    have hm : m < n := by omega
    have hstep : ((List.range (m + 1)).map (canonId n R)).filter
        (fun c => decide (0 ≤ c)) =
        ((List.range m).map (canonId n R)).filter (fun c => decide (0 ≤ c))
          ++ ([canonId n R m].filter (fun c => decide (0 ≤ c))) := by
      rw [List.range_succ, List.map_append, List.filter_append]
      rfl
    by_cases hbig : 1 < clsN n R m
    · have hval : canonId n R m =
          Int.ofNat (leadCount n R (minCl n R m)) := by
        unfold canonId
        rw [if_pos hbig]
      have hkeep : [canonId n R m].filter (fun c => decide (0 ≤ c)) =
          [canonId n R m] := by
        rw [hval]
        simp [List.filter]
      rw [hstep, hkeep]
      unfold dedupFirst
      rw [dedupSeen_append_one]
      have ih2 := ih (by omega)
      unfold dedupFirst at ih2
      rw [ih2]
      by_cases hlead : minCl n R m = m
      · -- a fresh class: the next id is exactly `leadCount m`
        have hleadb : isLeadB n R m = true := by
          unfold isLeadB
          simp [hlead, hbig]
        have hnotmem : ¬ (canonId n R m ∈ ([] : List Int) ∨
            canonId n R m ∈ ((List.range m).map (canonId n R)).filter
              (fun c => decide (0 ≤ c))) := by
          intro hcon
          rcases hcon with h | h
          · simp at h
          · have h2 : canonId n R m ∈ dedupFirst
                (((List.range m).map (canonId n R)).filter
                  (fun c => decide (0 ≤ c))) := by
              unfold dedupFirst
              rw [mem_dedupSeen]
              exact ⟨h, by simp⟩
            rw [ih (by omega)] at h2
            obtain ⟨t, ht, hte⟩ := List.mem_map.mp h2
            rw [hval, hlead] at hte
            have : t = leadCount n R m := by
              exact Int.ofNat.inj hte
            rw [this] at ht
            exact absurd (List.mem_range.mp ht) (lt_irrefl _)
        rw [if_neg hnotmem, leadCount_succ, hleadb, if_pos rfl]
        rw [hval, hlead, List.range_succ, List.map_append]
        rfl
      · -- a class already seen: its id is already present
        have hminlt : minCl n R m < m := by
          have := minCl_le (n := n) (R := R) hm
          omega
        have hleadb : isLeadB n R m = false := by
          unfold isLeadB
          simp [hlead]
        have hrank : leadCount n R (minCl n R m) < leadCount n R m :=
          leadCount_strict hminlt (minCl_isLead hm hbig)
        have hmem : canonId n R m ∈ ([] : List Int) ∨
            canonId n R m ∈ ((List.range m).map (canonId n R)).filter
              (fun c => decide (0 ≤ c)) := by
          right
          have h2 : canonId n R m ∈ dedupFirst
              (((List.range m).map (canonId n R)).filter
                (fun c => decide (0 ≤ c))) := by
            rw [ih (by omega), hval]
            exact List.mem_map.mpr ⟨leadCount n R (minCl n R m),
              List.mem_range.mpr hrank, rfl⟩
          unfold dedupFirst at h2
          exact (mem_dedupSeen _ _).mp h2 |>.1
        rw [if_pos hmem, leadCount_succ, hleadb, List.append_nil]
        simp
    · have hval : canonId n R m = -1 := by
        unfold canonId
        rw [if_neg hbig]
      have hdrop : [canonId n R m].filter (fun c => decide (0 ≤ c)) = [] := by
        rw [hval]
        simp [List.filter]
      have hleadb : isLeadB n R m = false := by
        unfold isLeadB
        simp [hbig]
      rw [hstep, hdrop, List.append_nil, ih (by omega), leadCount_succ,
        hleadb]
      simp

/-! ### Invariant through the union pass -/

theorem unionRow_wf (score : String → String → Nat) {x : String × Nat} :
    ∀ (ys : List (String × Nat)) (d : DSU), Wf d →
      x.2 < d.parent.length → (∀ y ∈ ys, y.2 < d.parent.length) →
      Wf (unionRow score x d ys) ∧
      (unionRow score x d ys).parent.length = d.parent.length := by
  intro ys
  induction ys with
  | nil => intro d hw _ _; exact ⟨hw, rfl⟩
  | cons y rest ih =>
    intro d hw hx hys
    have hy : y.2 < d.parent.length := hys y (List.mem_cons_self y rest)
    have hstep : Wf (if NAME_SIMILARITY_THRESHOLD ≤ score x.1 y.1
          then d.union x.2 y.2 else d) ∧
        (if NAME_SIMILARITY_THRESHOLD ≤ score x.1 y.1
          then d.union x.2 y.2 else d).parent.length = d.parent.length := by
      by_cases hs : NAME_SIMILARITY_THRESHOLD ≤ score x.1 y.1
      · rw [if_pos hs]
        exact DSU.union_spec hw hx hy
      · rw [if_neg hs]
        exact ⟨hw, rfl⟩
    have hres := ih _ hstep.1 (by rw [hstep.2]; exact hx)
      (fun z hz => by rw [hstep.2]; exact hys z (List.mem_cons_of_mem _ hz))
    exact ⟨hres.1, hres.2.trans hstep.2⟩

theorem unionBlock_wf (score : String → String → Nat) :
    ∀ (ys : List (String × Nat)) (d : DSU), Wf d →
      (∀ y ∈ ys, y.2 < d.parent.length) →
      Wf (unionBlock score d ys) ∧
      (unionBlock score d ys).parent.length = d.parent.length := by
  intro ys
  induction ys with
  | nil => intro d hw _; exact ⟨hw, rfl⟩
  | cons x rest ih =>
    intro d hw hys
    have hx : x.2 < d.parent.length := hys x (List.mem_cons_self x rest)
    have hrow := unionRow_wf score rest d hw hx
      (fun z hz => hys z (List.mem_cons_of_mem _ hz))
    have hres := ih _ hrow.1
      (fun z hz => by rw [hrow.2]; exact hys z (List.mem_cons_of_mem _ hz))
    exact ⟨hres.1, hres.2.trans hrow.2⟩

theorem dsuFinal_wf (score : String → String → Nat) (rs : List NRec) :
    Wf (dsuFinal score rs) ∧
    (dsuFinal score rs).parent.length = rs.length := by
  unfold dsuFinal
  have key : ∀ (bs : List ((Option String × String × String) × List Nat))
      (d : DSU), Wf d → d.parent.length = rs.length →
      (∀ kl ∈ bs, ∀ i ∈ kl.2, i < rs.length) →
      Wf (bs.foldl (fun d kb =>
        if kb.2.length < 2 then d
        else unionBlock score d
          (kb.2.map (fun i => ((rs.map NRec.name_norm).getD i "", i)))) d) ∧
      (bs.foldl (fun d kb =>
        if kb.2.length < 2 then d
        else unionBlock score d
          (kb.2.map (fun i => ((rs.map NRec.name_norm).getD i "", i))))
          d).parent.length = rs.length := by
    intro bs
    induction bs with
    | nil => intro d hw hlen _; exact ⟨hw, hlen⟩
    | cons kb rest ih =>
      intro d hw hlen hmem
      rw [List.foldl_cons]
      have hstep : Wf (if kb.2.length < 2 then d
            else unionBlock score d
              (kb.2.map (fun i => ((rs.map NRec.name_norm).getD i "", i)))) ∧
          (if kb.2.length < 2 then d
            else unionBlock score d
              (kb.2.map (fun i => ((rs.map NRec.name_norm).getD i "", i)))
            ).parent.length = rs.length := by
        by_cases h2 : kb.2.length < 2
        · rw [if_pos h2]
          exact ⟨hw, hlen⟩
        · rw [if_neg h2]
          have hb := unionBlock_wf score
            (kb.2.map (fun i => ((rs.map NRec.name_norm).getD i "", i))) d hw
            (by
              intro y hy
              obtain ⟨i, hi, hyi⟩ := List.mem_map.mp hy
              rw [hlen, ← hyi]
              exact hmem kb (List.mem_cons_self kb rest) i hi)
          exact ⟨hb.1, hb.2.trans hlen⟩
      exact ih _ hstep.1 hstep.2
        (fun kl hkl => hmem kl (List.mem_cons_of_mem _ hkl))
  exact key (buildBlocks rs) (DSU.mk0 rs.length) (mk0_wf _)
    (List.length_range _)
    (fun kl hkl i hi => buildBlocks_mem_lt rs hkl hi)

/-- `detect_duplicates` computes the canonical identifiers of the final
partition. -/
theorem detect_duplicates_eq_canon (score : String → String → Nat)
    (rs : List NRec) :
    detect_duplicates score rs =
      canonIds rs.length (fun x => rootOf (dsuFinal score rs).parent x) := by
  unfold detect_duplicates
  have h := clusterAssign_eq_canon (dsuFinal_wf score rs).1
  rw [h, (dsuFinal_wf score rs).2]

/-! ### Canonical form of normalized names -/

theorem toNat_ofNat_valid {n : Nat} (h : n.isValidChar) :
    (Char.ofNat n).toNat = n := by
  unfold Char.ofNat
  rw [dif_pos h]
  unfold Char.ofNatAux
  simp [Char.toNat, UInt32.toNat, BitVec.toNat_ofNatLt]

theorem toLower_toLower (c : Char) : c.toLower.toLower = c.toLower := by
  unfold Char.toLower
  by_cases h : c.toNat ≥ 65 ∧ c.toNat ≤ 90
  · rw [if_pos h]
    have hv : (c.toNat + 32).isValidChar := by
      unfold Nat.isValidChar
      left
      omega
    rw [toNat_ofNat_valid hv]
    rw [if_neg (by omega)]
  · rw [if_neg h, if_neg h]

theorem toLower_space : Char.toLower ' ' = ' ' := by decide

theorem word_not_space {c : Char} (h : pyWord c = true) :
    pySpace c = false := by
  by_contra hsp
  have hsp' : pySpace c = true := by
    revert hsp
    cases pySpace c <;> simp
  unfold pySpace at hsp'
  simp only [Bool.or_eq_true, decide_eq_true_eq] at hsp'
  have hcases : c = ' ' ∨ c = '\t' ∨ c = '\n' ∨ c = '\x0d' ∨ c = '\x0b' ∨
      c = '\x0c' := by tauto
  rcases hcases with rfl | rfl | rfl | rfl | rfl | rfl <;>
    exact absurd h (by decide)

/-- No two adjacent whitespace characters. -/
def noDbl : List Char → Bool
  | c :: d :: l => (!(pySpace c && pySpace d)) && noDbl (d :: l)
  | _ => true

theorem noDbl_tail {c : Char} {l : List Char} (h : noDbl (c :: l) = true) :
    noDbl l = true := by
  cases l with
  | nil => rfl
  | cons d t =>
    unfold noDbl at h
    simp only [Bool.and_eq_true] at h
    exact h.2

theorem subNonWord_chars {l : List Char} {c : Char} (h : c ∈ subNonWord l) :
    (pyWord c || pySpace c) = true := by
  unfold subNonWord at h
  obtain ⟨x, _, hx⟩ := List.mem_map.mp h
  by_cases hcond : (pyWord x || pySpace x) = true
  · rw [if_pos hcond] at hx
    rw [← hx]
    exact hcond
  · rw [if_neg hcond] at hx
    rw [← hx]
    decide

theorem subNonWord_lower {s : List Char} {c : Char}
    (h : c ∈ subNonWord (s.map Char.toLower)) : c.toLower = c := by
  unfold subNonWord at h
  obtain ⟨x, hxm, hx⟩ := List.mem_map.mp h
  obtain ⟨x0, _, hx0⟩ := List.mem_map.mp hxm
  by_cases hcond : (pyWord x || pySpace x) = true
  · rw [if_pos hcond] at hx
    rw [← hx, ← hx0]
    exact toLower_toLower x0
  · rw [if_neg hcond] at hx
    rw [← hx]
    exact toLower_space

theorem collapse_chars : ∀ (l : List Char), ∀ c ∈ collapseSpace l,
    c ∈ l ∨ c = ' '
  | [] => by simp [collapseSpace]
  | [x] => by
    intro c hc
    unfold collapseSpace at hc
    by_cases hx : pySpace x
    · rw [if_pos hx] at hc
      simp at hc
      exact Or.inr hc
    · rw [if_neg hx] at hc
      simp at hc
      exact Or.inl (by simp [hc])
  | x :: y :: l => by
    intro c hc
    unfold collapseSpace at hc
    by_cases hxy : pySpace x && pySpace y
    · rw [if_pos hxy] at hc
      rcases collapse_chars (y :: l) c hc with h | h
      · exact Or.inl (List.mem_cons_of_mem _ h)
      · exact Or.inr h
    · rw [if_neg hxy] at hc
      rcases List.mem_cons.mp hc with h | h
      · by_cases hx : pySpace x
        · rw [if_pos hx] at h
          exact Or.inr h
        · rw [if_neg hx] at h
          exact Or.inl (h ▸ List.mem_cons_self _ _)
      · rcases collapse_chars (y :: l) c h with h2 | h2
        · exact Or.inl (List.mem_cons_of_mem _ h2)
        · exact Or.inr h2

theorem collapse_space_char : ∀ (l : List Char), ∀ c ∈ collapseSpace l,
    pySpace c = true → c = ' '
  | [] => by simp [collapseSpace]
  | [x] => by
    intro c hc hsp
    unfold collapseSpace at hc
    by_cases hx : pySpace x
    · rw [if_pos hx] at hc
      simpa using hc
    · rw [if_neg hx] at hc
      simp at hc
      rw [hc] at hsp
      exact absurd hsp (by simpa using hx)
  | x :: y :: l => by
    intro c hc hsp
    unfold collapseSpace at hc
    by_cases hxy : pySpace x && pySpace y
    · rw [if_pos hxy] at hc
      exact collapse_space_char (y :: l) c hc hsp
    · rw [if_neg hxy] at hc
      rcases List.mem_cons.mp hc with h | h
      · by_cases hx : pySpace x
        · rw [if_pos hx] at h
          exact h
        · rw [if_neg hx] at h
          rw [h] at hsp
          exact absurd hsp (by simpa using hx)
      · exact collapse_space_char (y :: l) c h hsp

theorem collapse_head : ∀ (d : Char) (l : List Char),
    (collapseSpace (d :: l)).head? =
      some (if pySpace d then ' ' else d)
  | d, [] => by
    unfold collapseSpace
    by_cases hd : pySpace d
    · rw [if_pos hd, if_pos hd]
      rfl
    · rw [if_neg hd, if_neg hd]
      rfl
  | d, e :: l => by
    unfold collapseSpace
    by_cases hde : pySpace d && pySpace e
    · rw [if_pos hde]
      have hd : pySpace d = true := by
        simp only [Bool.and_eq_true] at hde
        exact hde.1
      have he : pySpace e = true := by
        simp only [Bool.and_eq_true] at hde
        exact hde.2
      rw [collapse_head e l, if_pos hd, if_pos he]
    · rw [if_neg hde]
      rfl

theorem collapse_noDbl : ∀ (l : List Char), noDbl (collapseSpace l) = true
  | [] => rfl
  | [x] => by
    unfold collapseSpace
    by_cases hx : pySpace x
    · rw [if_pos hx]
      rfl
    · rw [if_neg hx]
      rfl
  | x :: y :: l => by
    unfold collapseSpace
    by_cases hxy : pySpace x && pySpace y
    · rw [if_pos hxy]
      exact collapse_noDbl (y :: l)
    · rw [if_neg hxy]
      have hrest := collapse_noDbl (y :: l)
      have hhead := collapse_head y l
      cases hcl : collapseSpace (y :: l) with
      | nil => rw [hcl] at hhead; simp at hhead
      | cons z t =>
        rw [hcl] at hhead hrest
        have hz : z = if pySpace y then ' ' else y := by
          simpa using hhead
        unfold noDbl
        simp only [Bool.and_eq_true, Bool.not_eq_true']
        refine ⟨?_, hrest⟩
        by_cases hx : pySpace x
        · rw [if_pos hx]
          have hy : pySpace y = false := by
            revert hxy
            rw [hx]
            cases pySpace y <;> simp
          rw [hz, if_neg (by simp [hy])]
          simp [hy]
        · rw [if_neg hx]
          simp [(by simpa using hx : pySpace x = false)]

theorem collapse_id : ∀ (l : List Char),
    (∀ c ∈ l, pySpace c = true → c = ' ') → noDbl l = true →
    collapseSpace l = l
  | [] => by intro _ _; rfl
  | [x] => by
    intro hsp _
    unfold collapseSpace
    by_cases hx : pySpace x
    · rw [if_pos hx, hsp x (by simp) hx]
    · rw [if_neg hx]
  | x :: y :: l => by
    intro hsp hnd
    unfold collapseSpace
    unfold noDbl at hnd
    simp only [Bool.and_eq_true, Bool.not_eq_true'] at hnd
    rw [if_neg (by simp [hnd.1])]
    have hrec := collapse_id (y :: l)
      (fun c hc hspc => hsp c (List.mem_cons_of_mem _ hc) hspc) hnd.2
    rw [hrec]
    by_cases hx : pySpace x
    · rw [if_pos hx, hsp x (List.mem_cons_self _ _) hx]
    · rw [if_neg hx]

theorem noDbl_cons_cons {c d : Char} {t : List Char} :
    noDbl (c :: d :: t) = true ↔
      (pySpace c && pySpace d) = false ∧ noDbl (d :: t) = true := by
  show ((!(pySpace c && pySpace d)) && noDbl (d :: t)) = true ↔ _
  simp only [Bool.and_eq_true, Bool.not_eq_true']

theorem dropWhile_noDbl {p : Char → Bool} : ∀ {l : List Char},
    noDbl l = true → noDbl (l.dropWhile p) = true := by
  intro l
  induction l with
  | nil => intro _; rfl
  | cons c l ih =>
    intro h
    rw [List.dropWhile_cons]
    by_cases hc : p c
    · rw [if_pos hc]
      exact ih (noDbl_tail h)
    · rw [if_neg hc]
      exact h

theorem dropWhile_head_not {p : Char → Bool} : ∀ {l : List Char} {c : Char},
    (l.dropWhile p).head? = some c → p c = false := by
  intro l
  induction l with
  | nil => intro c h; simp at h
  | cons d l ih =>
    intro c h
    rw [List.dropWhile_cons] at h
    by_cases hd : p d
    · rw [if_pos hd] at h
      exact ih h
    · rw [if_neg hd] at h
      have : d = c := by simpa using h
      rw [← this]
      simpa using hd

theorem stripRight_eq_cons : ∀ {l : List Char} {z : Char} {t : List Char},
    stripRight l = z :: t → l.head? = some z := by
  intro l
  induction l with
  | nil => intro z t h; simp [stripRight] at h
  | cons c l ih =>
    intro z t h
    unfold stripRight at h
    cases hsl : stripRight l with
    | nil =>
      rw [hsl] at h
      by_cases hc : pySpace c
      · rw [if_pos hc] at h
        exact absurd h (by simp)
      · rw [if_neg hc] at h
        have : c = z := by
          have := List.cons.injEq .. ▸ h
          exact (by simpa using h : c = z ∧ [] = t).1
        rw [this]
        rfl
    | cons z2 t2 =>
      rw [hsl] at h
      have : c = z := (by simpa using h : c = z ∧ z2 :: t2 = t).1
      rw [this]
      rfl

theorem stripRight_chars : ∀ {l : List Char} {c : Char},
    c ∈ stripRight l → c ∈ l := by
  intro l
  induction l with
  | nil => intro c h; simp [stripRight] at h
  | cons x l ih =>
    intro c h
    unfold stripRight at h
    cases hsl : stripRight l with
    | nil =>
      rw [hsl] at h
      by_cases hx : pySpace x
      · rw [if_pos hx] at h
        simp at h
      · rw [if_neg hx] at h
        have : c = x := by simpa using h
        rw [this]
        exact List.mem_cons_self _ _
    | cons z t =>
      rw [hsl] at h
      rcases List.mem_cons.mp h with he | he
      · rw [he]
        exact List.mem_cons_self _ _
      · exact List.mem_cons_of_mem _ (ih (hsl ▸ he))

theorem stripRight_noDbl : ∀ {l : List Char},
    noDbl l = true → noDbl (stripRight l) = true := by
  intro l
  induction l with
  | nil => intro _; rfl
  | cons c l ih =>
    intro h
    unfold stripRight
    cases hsl : stripRight l with
    | nil =>
      by_cases hc : pySpace c
      · rw [if_pos hc]
        rfl
      · rw [if_neg hc]
        rfl
    | cons z t =>
      have hz : l.head? = some z := stripRight_eq_cons hsl
      cases l with
      | nil => simp at hz
      | cons d l2 =>
        have hzd : d = z := by simpa using hz
        rw [noDbl_cons_cons]
        refine ⟨?_, hsl ▸ ih (noDbl_tail h)⟩
        have := (noDbl_cons_cons.mp h).1
        rw [← hzd]
        exact this

theorem stripRight_last_not : ∀ {l : List Char} {c : Char},
    (stripRight l).getLast? = some c → pySpace c = false := by
  intro l
  induction l with
  | nil => intro c h; simp [stripRight] at h
  | cons x l ih =>
    intro c h
    unfold stripRight at h
    cases hsl : stripRight l with
    | nil =>
      rw [hsl] at h
      by_cases hx : pySpace x
      · rw [if_pos hx] at h
        simp at h
      · rw [if_neg hx] at h
        have : x = c := by simpa using h
        rw [← this]
        simpa using hx
    | cons z t =>
      rw [hsl] at h
      rw [List.getLast?_cons_cons] at h
      exact ih (hsl ▸ h)

theorem stripRight_id : ∀ {l : List Char},
    (∀ c, l.getLast? = some c → pySpace c = false) → stripRight l = l := by
  intro l
  induction l with
  | nil => intro _; rfl
  | cons x l ih =>
    intro h
    cases l with
    | nil =>
      unfold stripRight
      have hx : pySpace x = false := h x rfl
      simp [stripRight, hx]
    | cons y t =>
      have hrec : stripRight (y :: t) = y :: t := by
        apply ih
        intro c hc
        apply h
        rw [List.getLast?_cons_cons]
        exact hc
      unfold stripRight
      rw [hrec]

theorem normalize_name_toList (s : String) :
    (normalize_name (some s)).toList =
      stripRight ((collapseSpace (subNonWord
        (s.toList.map Char.toLower))).dropWhile pySpace) := rfl

/-- Output characters of `normalize_name`: word characters or single
spaces, no leading/trailing whitespace, no doubled whitespace, all fixed
under lowercasing. -/
theorem normalize_name_canon (s : String) :
    (∀ c ∈ (normalize_name (some s)).toList, pyWord c = true ∨ c = ' ') ∧
    noDbl (normalize_name (some s)).toList = true ∧
    (∀ c, (normalize_name (some s)).toList.head? = some c →
      pySpace c = false) ∧
    (∀ c, (normalize_name (some s)).toList.getLast? = some c →
      pySpace c = false) ∧
    (∀ c ∈ (normalize_name (some s)).toList, c.toLower = c) := by
  rw [normalize_name_toList]
  have hmemC : ∀ c ∈ stripRight ((collapseSpace (subNonWord
      (s.toList.map Char.toLower))).dropWhile pySpace),
      c ∈ collapseSpace (subNonWord (s.toList.map Char.toLower)) := by
    intro c hc
    have h1 := stripRight_chars hc
    exact (List.dropWhile_sublist _).mem h1
  refine ⟨?_, ?_, ?_, ?_, ?_⟩
  · intro c hc
    have h2 := hmemC c hc
    rcases collapse_chars _ c h2 with h3 | h3
    · have h4 := subNonWord_chars h3
      rcases Bool.or_eq_true .. ▸ h4 with h5 | h5
      · exact Or.inl h5
      · exact Or.inr (collapse_space_char _ c h2 h5)
    · exact Or.inr h3
  · exact stripRight_noDbl (dropWhile_noDbl (collapse_noDbl _))
  · intro c hc
    cases hsr : stripRight ((collapseSpace (subNonWord
        (s.toList.map Char.toLower))).dropWhile pySpace) with
    | nil => rw [hsr] at hc; simp at hc
    | cons z t =>
      rw [hsr] at hc
      have hz : z = c := by simpa using hc
      have hh := stripRight_eq_cons hsr
      rw [← hz]
      exact dropWhile_head_not hh
  · intro c hc
    exact stripRight_last_not hc
  · intro c hc
    have h2 := hmemC c hc
    rcases collapse_chars _ c h2 with h3 | h3
    · exact subNonWord_lower h3
    · rw [h3]
      exact toLower_space

theorem subNonWord_id {l : List Char}
    (h : ∀ c ∈ l, (pyWord c || pySpace c) = true) : subNonWord l = l := by
  unfold subNonWord
  have : ∀ c ∈ l, (if pyWord c || pySpace c then c else ' ') = id c := by
    intro c hc
    rw [if_pos (h c hc)]
    rfl
  rw [List.map_congr_left this, List.map_id]

/-- `normalize_name` is idempotent. -/
theorem normalize_name_idem (s : String) :
    normalize_name (some (normalize_name (some s))) =
      normalize_name (some s) := by
  obtain ⟨hchars, hnd, hhead, hlast, hlow⟩ := normalize_name_canon s
  have hmap : (normalize_name (some s)).toList.map Char.toLower =
      (normalize_name (some s)).toList := by
    have : ∀ c ∈ (normalize_name (some s)).toList,
        Char.toLower c = id c := fun c hc => hlow c hc
    rw [List.map_congr_left this, List.map_id]
  have hsub : subNonWord (normalize_name (some s)).toList =
      (normalize_name (some s)).toList := by
    apply subNonWord_id
    intro c hc
    rcases hchars c hc with h1 | h1
    · simp [h1]
    · rw [h1]
      decide
  have hspc : ∀ c ∈ (normalize_name (some s)).toList,
      pySpace c = true → c = ' ' := by
    intro c hc hsp
    rcases hchars c hc with h1 | h1
    · rw [word_not_space h1] at hsp
      exact absurd hsp (by simp)
    · exact h1
  have hcol : collapseSpace (normalize_name (some s)).toList =
      (normalize_name (some s)).toList := collapse_id _ hspc hnd
  have hdrop : ((normalize_name (some s)).toList).dropWhile pySpace =
      (normalize_name (some s)).toList := by
    cases hl : (normalize_name (some s)).toList with
    | nil => rfl
    | cons c t =>
      rw [List.dropWhile_cons, if_neg]
      rw [hhead c (by rw [hl]; rfl)]
      simp
  have hstrip : stripRight (normalize_name (some s)).toList =
      (normalize_name (some s)).toList := stripRight_id hlast
  show String.mk (stripRight ((collapseSpace (subNonWord
      ((normalize_name (some s)).toList.map Char.toLower))).dropWhile
        pySpace)) = normalize_name (some s)
  rw [hmap, hsub, hcol, hdrop, hstrip]
  cases hns : normalize_name (some s) with
  | mk data => rfl

/-! ### Claims -/

/-- C4: the phonetic encoder meets the spec's known values:
`soundex "Robert" = "R163"`, `soundex "Rupert" = "R163"`, and
`soundex "" = ""` (the empty string, not a zero-padded 4-character
code). -/
theorem C4_soundex_known_values :
    soundex "Robert" = "R163" ∧ soundex "Rupert" = "R163" ∧
    soundex "" = "" := by
  refine ⟨by decide, by decide, by decide⟩

/-- C5 as stated is false on the code: Python `\w` includes the
underscore, so `normalize_name` keeps `_` instead of replacing it with a
space, and the output is not restricted to letters, digits and interior
spaces. -/
theorem C5_counterexample :
    normalize_name (some "a_b") = "a_b" ∧
    ¬ (∀ c ∈ (normalize_name (some "a_b")).toList,
        c.isAlphanum = true ∨ c = ' ') := by
  refine ⟨by decide, by decide⟩

/-- C5 amended: `normalize_name` lowercases its input, replaces every
character that is not a word character (letter, digit or underscore) and
not whitespace with a single space, collapses whitespace runs and trims:
every output character is a letter, digit, underscore or a single
interior space, with no leading, trailing or doubled whitespace, the
output is fixed under lowercasing, and missing input yields the empty
string. -/
theorem C5_normalize_name_amended (s : String) :
    normalize_name none = "" ∧
    (∀ c ∈ (normalize_name (some s)).toList,
      (c.isAlphanum = true ∨ c = '_') ∨ c = ' ') ∧
    noDbl (normalize_name (some s)).toList = true ∧
    (∀ c, (normalize_name (some s)).toList.head? = some c →
      pySpace c = false) ∧
    (∀ c, (normalize_name (some s)).toList.getLast? = some c →
      pySpace c = false) ∧
    (∀ c ∈ (normalize_name (some s)).toList, c.toLower = c) := by
  obtain ⟨hchars, hnd, hhead, hlast, hlow⟩ := normalize_name_canon s
  refine ⟨rfl, ?_, hnd, hhead, hlast, hlow⟩
  intro c hc
  rcases hchars c hc with h1 | h1
  · unfold pyWord at h1
    simp only [Bool.or_eq_true, decide_eq_true_eq] at h1
    exact Or.inl h1
  · exact Or.inr h1

theorem C5_normalize_name_amended_witness :
    ((('a' : Char).isAlphanum = true ∨ ('a' : Char) = '_') ∨
      ('a' : Char) = ' ') ∧
    noDbl (normalize_name (some " a  b!c ")).toList = true ∧
    pySpace 'a' = false := by
  have h := C5_normalize_name_amended " a  b!c "
  refine ⟨h.2.1 'a' (by decide), h.2.2.1, h.2.2.2.1 'a' (by decide)⟩

/-- C9: `normalize_name` is idempotent: applying it to its own output
returns the output unchanged, for every input text. -/
theorem C9_normalize_name_idempotent (x : String) :
    normalize_name (some (normalize_name (some x))) =
      normalize_name (some x) :=
  normalize_name_idem x

/-- C7: the blocking index partitions the record index set: concatenating
all block member-lists gives a permutation of `0, ..., n-1` (no
duplicates, no omissions), and every record index occurs in some block
(hence, by the permutation, in exactly one). -/
theorem C7_blocking_partition (rs : List NRec) :
    List.Perm (((buildBlocks rs).map Prod.snd).flatten)
      (List.range rs.length) ∧
    (∀ i, i < rs.length → ∃ kl ∈ buildBlocks rs, i ∈ kl.2) := by
  refine ⟨buildBlocks_partition rs, ?_⟩
  intro i hi
  obtain ⟨l, hl, hil⟩ := mem_buildBlocks rs hi
  exact ⟨(blockKey (rs.get ⟨i, hi⟩), l), hl, hil⟩

theorem C7_blocking_partition_witness :
    List.Perm (((buildBlocks
        [⟨"ann", none, "female", "A500"⟩,
         ⟨"bob", some "1990-01-01", "male", "B100"⟩]).map Prod.snd).flatten)
      (List.range 2) ∧
    ∃ kl ∈ buildBlocks
        [⟨"ann", none, "female", "A500"⟩,
         ⟨"bob", some "1990-01-01", "male", "B100"⟩], 1 ∈ kl.2 := by
  have h := C7_blocking_partition
    [⟨"ann", none, "female", "A500"⟩,
     ⟨"bob", some "1990-01-01", "male", "B100"⟩]
  exact ⟨h.1, h.2 1 (by decide)⟩

/-- C8: records whose DOB resolved to the unknown sentinel (`none`,
pandas `NaT`) still participate in blocking: two unknown-DOB records with
equal normalized gender and equal 2-character phonetic prefixes get the
same block key and land in the same bucket (so they are still compared
and can be clustered), and the pipeline still produces a full-length
cluster column — no error path. -/
theorem C8_unknown_dob_still_blocks (score : String → String → Nat)
    (rs : List NRec) (i j : Nat) (hi : i < rs.length) (hj : j < rs.length)
    (hdi : (rs.get ⟨i, hi⟩).dob = none) (hdj : (rs.get ⟨j, hj⟩).dob = none)
    (hg : (rs.get ⟨i, hi⟩).gender = (rs.get ⟨j, hj⟩).gender)
    (hs2 : (rs.get ⟨i, hi⟩).sdx.take 2 = (rs.get ⟨j, hj⟩).sdx.take 2) :
    blockKey (rs.get ⟨i, hi⟩) = blockKey (rs.get ⟨j, hj⟩) ∧
    (∃ kl ∈ buildBlocks rs, i ∈ kl.2 ∧ j ∈ kl.2) ∧
    (detect_duplicates score rs).length = rs.length := by
  have hkey : blockKey (rs.get ⟨i, hi⟩) = blockKey (rs.get ⟨j, hj⟩) := by
    unfold blockKey
    rw [hdi, hdj, hg, hs2]
  refine ⟨hkey, ?_, ?_⟩
  · obtain ⟨l1, hl1, hil1⟩ := mem_buildBlocks rs hi
    obtain ⟨l2, hl2, hjl2⟩ := mem_buildBlocks rs hj
    rw [hkey] at hl1
    have heq : l1 = l2 := assoc_unique (buildBlocks_keys_nodup rs) hl1 hl2
    exact ⟨(blockKey (rs.get ⟨j, hj⟩), l2), hl2, heq ▸ hil1, hjl2⟩
  · rw [detect_duplicates_eq_canon]
    exact canonIds_length

theorem C8_unknown_dob_still_blocks_witness :
    blockKey (([⟨"jon smith", none, "male", "J525"⟩,
        ⟨"john smith", none, "male", "J525"⟩] : List NRec).get
          ⟨0, by decide⟩) =
      blockKey (([⟨"jon smith", none, "male", "J525"⟩,
        ⟨"john smith", none, "male", "J525"⟩] : List NRec).get
          ⟨1, by decide⟩) ∧
    (∃ kl ∈ buildBlocks [⟨"jon smith", none, "male", "J525"⟩,
        ⟨"john smith", none, "male", "J525"⟩], 0 ∈ kl.2 ∧ 1 ∈ kl.2) ∧
    (detect_duplicates (fun _ _ => 100)
      [⟨"jon smith", none, "male", "J525"⟩,
       ⟨"john smith", none, "male", "J525"⟩]).length = 2 := by
  have h := C8_unknown_dob_still_blocks (fun _ _ => 100)
    [⟨"jon smith", none, "male", "J525"⟩,
     ⟨"john smith", none, "male", "J525"⟩] 0 1 (by decide) (by decide)
    (by decide) (by decide) (by decide) (by decide)
  exact h

theorem is_dup_col_getD : ∀ (l : List Int) (i : Nat), i < l.length →
    (is_dup_col l).getD i false = decide (0 ≤ l.getD i (-1)) := by
  intro l
  induction l with
  | nil => intro i h; simp at h
  | cons a l ih =>
    intro i h
    cases i with
    | zero => rfl
    | succ i => exact ih i (by simpa using h)

theorem canonId_nonneg_iff {n : Nat} {R : Nat → Nat} {i : Nat} :
    0 ≤ canonId n R i ↔ 1 < clsN n R i := by
  unfold canonId
  by_cases hbig : 1 < clsN n R i
  · rw [if_pos hbig]
    constructor
    · intro _; exact hbig
    · intro _; exact Int.ofNat_nonneg _
  · rw [if_neg hbig]
    constructor
    · intro h; exact absurd h (by decide)
    · intro h; exact absurd h hbig

/-- C1 as stated is false on the code: a record whose final set has size
exactly 1 does not receive an absent/null value — the `Int64` cluster
column keeps the numeric sentinel `-1` from the `[-1]*len(df)`
initializer.  One unmatched record: its set size is 1 yet its cluster
value is the number `-1`. -/
theorem C1_counterexample :
    detect_duplicates (fun _ _ => 100)
      [⟨"ann", none, "female", "A500"⟩] = [-1] ∧
    classSize (dsuFinal (fun _ _ => 100)
      [⟨"ann", none, "female", "A500"⟩]) 0 = 1 := by
  refine ⟨by decide, by decide⟩

/-- C1 amended: cluster identifiers are assigned exactly to records whose
final disjoint set has size > 1; records in singleton sets keep the
numeric sentinel `-1` (not an absent/null value); each assigned record's
identifier equals the first-encounter rank of its root — the number of
multi-member roots whose first member (class minimum) is scanned, in
ascending index order, strictly before this record's class minimum — so
distinct roots get distinct identifiers, records of one set share one,
and the assigned identifiers in scan order are `0, 1, ..., k-1`
sequentially with no gaps. -/
theorem C1_cluster_id_assignment (score : String → String → Nat)
    (rs : List NRec) :
    (detect_duplicates score rs).length = rs.length ∧
    (∀ i, i < rs.length →
      (0 ≤ (detect_duplicates score rs).getD i (-1) ↔
        1 < classSize (dsuFinal score rs) i)) ∧
    (∀ i, i < rs.length → classSize (dsuFinal score rs) i = 1 →
      (detect_duplicates score rs).getD i (-1) = -1) ∧
    (∀ i, i < rs.length → 1 < classSize (dsuFinal score rs) i →
      (detect_duplicates score rs).getD i (-1) =
        Int.ofNat (leadCount rs.length
          (fun x => rootOf (dsuFinal score rs).parent x)
          (minCl rs.length
            (fun x => rootOf (dsuFinal score rs).parent x) i))) ∧
    (∀ i j, i < rs.length → j < rs.length →
      rootOf (dsuFinal score rs).parent i =
        rootOf (dsuFinal score rs).parent j →
      (detect_duplicates score rs).getD i (-1) =
        (detect_duplicates score rs).getD j (-1)) ∧
    (∀ i j, i < rs.length → j < rs.length →
      1 < classSize (dsuFinal score rs) i →
      1 < classSize (dsuFinal score rs) j →
      ((detect_duplicates score rs).getD i (-1) =
          (detect_duplicates score rs).getD j (-1) ↔
        rootOf (dsuFinal score rs).parent i =
          rootOf (dsuFinal score rs).parent j)) ∧
    (∃ k, dedupFirst ((detect_duplicates score rs).filter
        (fun c => decide (0 ≤ c))) = (List.range k).map Int.ofNat) := by
  have hlen := (dsuFinal_wf score rs).2
  have hdd := detect_duplicates_eq_canon score rs
  have hsize : ∀ i, classSize (dsuFinal score rs) i =
      clsN rs.length (fun x => rootOf (dsuFinal score rs).parent x) i := by
    intro i
    unfold classSize
    rw [hlen]
  have hrank : ∀ i, i < rs.length →
      1 < classSize (dsuFinal score rs) i →
      (detect_duplicates score rs).getD i (-1) =
        Int.ofNat (leadCount rs.length
          (fun x => rootOf (dsuFinal score rs).parent x)
          (minCl rs.length
            (fun x => rootOf (dsuFinal score rs).parent x) i)) := by
    intro i hi hbig
    rw [hsize i] at hbig
    rw [hdd, canonIds_getD hi]
    unfold canonId
    rw [if_pos hbig]
  have hsame : ∀ i j, i < rs.length → j < rs.length →
      rootOf (dsuFinal score rs).parent i =
        rootOf (dsuFinal score rs).parent j →
      (detect_duplicates score rs).getD i (-1) =
        (detect_duplicates score rs).getD j (-1) := by
    intro i j hi hj hro
    rw [hdd, canonIds_getD hi, canonIds_getD hj]
    unfold canonId
    have hro' : (fun x => rootOf (dsuFinal score rs).parent x) i =
        (fun x => rootOf (dsuFinal score rs).parent x) j := hro
    rw [clsN_congr hro', minCl_congr hro' hi]
  refine ⟨?_, ?_, ?_, hrank, hsame, ?_, ?_⟩
  · rw [hdd]
    exact canonIds_length
  · intro i hi
    rw [hdd, canonIds_getD hi, hsize i]
    exact canonId_nonneg_iff
  · intro i hi hsz
    rw [hsize i] at hsz
    rw [hdd, canonIds_getD hi]
    unfold canonId
    rw [if_neg (by omega)]
  · intro i j hi hj hbigi hbigj
    constructor
    · intro heq
      rw [hrank i hi hbigi, hrank j hj hbigj] at heq
      have hrk := Int.ofNat.inj heq
      rw [hsize i] at hbigi
      rw [hsize j] at hbigj
      have hmm : minCl rs.length
          (fun x => rootOf (dsuFinal score rs).parent x) i =
          minCl rs.length
            (fun x => rootOf (dsuFinal score rs).parent x) j := by
        by_contra hne
        rcases Nat.lt_or_ge
            (minCl rs.length
              (fun x => rootOf (dsuFinal score rs).parent x) i)
            (minCl rs.length
              (fun x => rootOf (dsuFinal score rs).parent x) j) with
          hlt | hge
        · have := leadCount_strict hlt (minCl_isLead hi hbigi)
          omega
        · have hlt2 : minCl rs.length
              (fun x => rootOf (dsuFinal score rs).parent x) j <
              minCl rs.length
                (fun x => rootOf (dsuFinal score rs).parent x) i := by
            omega
          have := leadCount_strict hlt2 (minCl_isLead hj hbigj)
          omega
      have h1 := minCl_same (n := rs.length)
        (R := fun x => rootOf (dsuFinal score rs).parent x) hi
      have h2 := minCl_same (n := rs.length)
        (R := fun x => rootOf (dsuFinal score rs).parent x) hj
      rw [hmm] at h1
      exact h1.symm.trans h2
    · intro hro
      exact hsame i j hi hj hro
  · refine ⟨leadCount rs.length
      (fun x => rootOf (dsuFinal score rs).parent x) rs.length, ?_⟩
    rw [hdd]
    unfold canonIds
    exact canon_dedup rs.length _ rs.length (le_refl _)

theorem C1_cluster_id_assignment_witness :
    (detect_duplicates (fun _ _ => 100)
      [⟨"jon smith", none, "male", "J525"⟩,
       ⟨"john smith", none, "male", "J525"⟩,
       ⟨"ann", some "1980-05-05", "female", "A500"⟩]).length = 3 ∧
    (0 ≤ (detect_duplicates (fun _ _ => 100)
      [⟨"jon smith", none, "male", "J525"⟩,
       ⟨"john smith", none, "male", "J525"⟩,
       ⟨"ann", some "1980-05-05", "female", "A500"⟩]).getD 0 (-1) ↔
      1 < classSize (dsuFinal (fun _ _ => 100)
      [⟨"jon smith", none, "male", "J525"⟩,
       ⟨"john smith", none, "male", "J525"⟩,
       ⟨"ann", some "1980-05-05", "female", "A500"⟩]) 0) ∧
    (detect_duplicates (fun _ _ => 100)
      [⟨"jon smith", none, "male", "J525"⟩,
       ⟨"john smith", none, "male", "J525"⟩,
       ⟨"ann", some "1980-05-05", "female", "A500"⟩]).getD 2 (-1) = -1 ∧
    (detect_duplicates (fun _ _ => 100)
      [⟨"jon smith", none, "male", "J525"⟩,
       ⟨"john smith", none, "male", "J525"⟩,
       ⟨"ann", some "1980-05-05", "female", "A500"⟩]).getD 1 (-1) =
      Int.ofNat (leadCount 3
        (fun x => rootOf (dsuFinal (fun _ _ => 100)
          [⟨"jon smith", none, "male", "J525"⟩,
           ⟨"john smith", none, "male", "J525"⟩,
           ⟨"ann", some "1980-05-05", "female", "A500"⟩]).parent x)
        (minCl 3
          (fun x => rootOf (dsuFinal (fun _ _ => 100)
            [⟨"jon smith", none, "male", "J525"⟩,
             ⟨"john smith", none, "male", "J525"⟩,
             ⟨"ann", some "1980-05-05", "female", "A500"⟩]).parent x) 1)) ∧
    ((detect_duplicates (fun _ _ => 100)
      [⟨"jon smith", none, "male", "J525"⟩,
       ⟨"john smith", none, "male", "J525"⟩,
       ⟨"ann", some "1980-05-05", "female", "A500"⟩]).getD 0 (-1) =
        (detect_duplicates (fun _ _ => 100)
      [⟨"jon smith", none, "male", "J525"⟩,
       ⟨"john smith", none, "male", "J525"⟩,
       ⟨"ann", some "1980-05-05", "female", "A500"⟩]).getD 1 (-1) ↔
      rootOf (dsuFinal (fun _ _ => 100)
      [⟨"jon smith", none, "male", "J525"⟩,
       ⟨"john smith", none, "male", "J525"⟩,
       ⟨"ann", some "1980-05-05", "female", "A500"⟩]).parent 0 =
        rootOf (dsuFinal (fun _ _ => 100)
      [⟨"jon smith", none, "male", "J525"⟩,
       ⟨"john smith", none, "male", "J525"⟩,
       ⟨"ann", some "1980-05-05", "female", "A500"⟩]).parent 1) ∧
    (∃ k, dedupFirst ((detect_duplicates (fun _ _ => 100)
      [⟨"jon smith", none, "male", "J525"⟩,
       ⟨"john smith", none, "male", "J525"⟩,
       ⟨"ann", some "1980-05-05", "female", "A500"⟩]).filter
        (fun c => decide (0 ≤ c))) = (List.range k).map Int.ofNat) := by
  have h := C1_cluster_id_assignment (fun _ _ => 100)
    [⟨"jon smith", none, "male", "J525"⟩,
     ⟨"john smith", none, "male", "J525"⟩,
     ⟨"ann", some "1980-05-05", "female", "A500"⟩]
  exact ⟨h.1, h.2.1 0 (by decide), h.2.2.1 2 (by decide) (by decide),
    h.2.2.2.1 1 (by decide) (by decide),
    h.2.2.2.2.2.1 0 1 (by decide) (by decide) (by decide) (by decide),
    h.2.2.2.2.2.2⟩

/-- C2 fails on the code: the summary's `Duplicate_Clusters` is
`Cluster_ID.dropna().nunique()`, but the column's missing-cluster marker
is the non-null sentinel `-1`, so `dropna()` is a no-op and `nunique`
counts the sentinel as one extra distinct value.  On a single-record
input there are 0 duplicate clusters and no assigned identifiers, yet
the summary reports (total, duplicates, clusters) = (1, 0, 1). -/
theorem C2_summary_counts_sentinel_as_cluster :
    processIds (fun _ _ => 100) (fun _ => none)
      [⟨some "Ann", none, some "F"⟩] = [-1] ∧
    processSummary (fun _ _ => 100) (fun _ => none)
      [⟨some "Ann", none, some "F"⟩] = (1, 0, 1) := by
  refine ⟨by decide, by decide⟩

/-- C3: the duplicate flag of an annotated record is true iff a cluster
identifier is present on the record — i.e. iff its cluster value is an
assigned id (non-negative) rather than the `-1` initializer — which
holds exactly when the record's final disjoint set has size > 1. -/
theorem C3_duplicate_flag_consistency (score : String → String → Nat)
    (parseD : Option String → Option String) (raws : List RawRec)
    (i : Nat) (hi : i < raws.length) :
    ((is_dup_col (processIds score parseD raws)).getD i false = true ↔
      0 ≤ (processIds score parseD raws).getD i (-1)) ∧
    (0 ≤ (processIds score parseD raws).getD i (-1) ↔
      1 < classSize (dsuFinal score (raws.map (mkRec parseD))) i) := by
  have hi2 : i < (raws.map (mkRec parseD)).length := by simpa using hi
  have hlen2 : (processIds score parseD raws).length = raws.length := by
    unfold processIds
    rw [detect_duplicates_eq_canon, canonIds_length]
    simp
  constructor
  · rw [is_dup_col_getD _ i (by rw [hlen2]; exact hi)]
    exact decide_eq_true_iff
  · unfold processIds
    rw [detect_duplicates_eq_canon, canonIds_getD hi2]
    unfold classSize
    rw [(dsuFinal_wf score (raws.map (mkRec parseD))).2]
    exact canonId_nonneg_iff

theorem C3_duplicate_flag_consistency_witness :
    ((is_dup_col (processIds (fun _ _ => 100) (fun x => x)
      [⟨some "Jon Smith", some "1990-01-01", some "M"⟩,
       ⟨some "John Smith", some "1990-01-01", some "M"⟩])).getD 0 false =
        true ↔
      0 ≤ (processIds (fun _ _ => 100) (fun x => x)
      [⟨some "Jon Smith", some "1990-01-01", some "M"⟩,
       ⟨some "John Smith", some "1990-01-01", some "M"⟩]).getD 0 (-1)) ∧
    (0 ≤ (processIds (fun _ _ => 100) (fun x => x)
      [⟨some "Jon Smith", some "1990-01-01", some "M"⟩,
       ⟨some "John Smith", some "1990-01-01", some "M"⟩]).getD 0 (-1) ↔
      1 < classSize (dsuFinal (fun _ _ => 100)
        (([⟨some "Jon Smith", some "1990-01-01", some "M"⟩,
           ⟨some "John Smith", some "1990-01-01", some "M"⟩] :
          List RawRec).map (mkRec (fun x => x)))) 0) := by
  have h := C3_duplicate_flag_consistency (fun _ _ => 100) (fun x => x)
    [⟨some "Jon Smith", some "1990-01-01", some "M"⟩,
     ⟨some "John Smith", some "1990-01-01", some "M"⟩] 0 (by decide)
  exact h

/-- C6: cluster-identifier numbering depends only on the ascending scan
order of record indices and the final partition, not on the order in
which pairs were unioned: two well-formed forests over the same index
universe that induce the same partition produce identical cluster-id
columns.  (Re-running the pure pipeline on identical input yields the
same column by definitional purity; this theorem settles the substantive
half.) -/
theorem C6_cluster_id_determinism (d1 d2 : DSU) (hw1 : Wf d1) (hw2 : Wf d2)
    (hlen : d1.parent.length = d2.parent.length)
    (hpart : ∀ i, i < d1.parent.length → ∀ j, j < d1.parent.length →
      (rootOf d1.parent i = rootOf d1.parent j ↔
       rootOf d2.parent i = rootOf d2.parent j)) :
    clusterAssign d1 = clusterAssign d2 := by
  rw [clusterAssign_eq_canon hw1, clusterAssign_eq_canon hw2, ← hlen]
  exact canonIds_congr (fun i j hi hj => hpart i hi j hj)

theorem C6_cluster_id_determinism_witness :
    clusterAssign (runOps 3 [DOp.union 0 1, DOp.union 1 2]) =
      clusterAssign (runOps 3 [DOp.union 2 1, DOp.union 0 2]) := by
  exact C6_cluster_id_determinism
    (runOps 3 [DOp.union 0 1, DOp.union 1 2])
    (runOps 3 [DOp.union 2 1, DOp.union 0 2])
    (by decide) (by decide) (by decide) (by decide)

/-- C10: starting from a fresh `DSU(n)`, after any sequence of `find`
and `union` calls on indices below `n` the parent array still forms an
acyclic forest — entries in range and every path reaching a root within
`n` steps, so the fuel-bounded `find` terminates at the root — and, for
every root, the recorded size equals the number of indices resolving to
it (all of which is the `Wf` invariant). -/
theorem C10_dsu_invariant (n : Nat) (ops : List DOp)
    (hv : ∀ op ∈ ops, validOp n op) :
    Wf (runOps n ops) ∧ (runOps n ops).parent.length = n ∧
    (∀ a, a < n →
      ((runOps n ops).find a).2 = rootOf (runOps n ops).parent a ∧
      isRoot (runOps n ops).parent ((runOps n ops).find a).2) := by
  have h := runOps_wf hv
  refine ⟨h.1, h.2, ?_⟩
  intro a ha
  have ha' : a < (runOps n ops).parent.length := by rw [h.2]; exact ha
  obtain ⟨hr, _, _, _, _⟩ := DSU.find_spec h.1 ha'
  refine ⟨hr, ?_⟩
  rw [hr]
  exact rootOf_root h.1.2.2.1 ha'

theorem C10_dsu_invariant_witness :
    Wf (runOps 3 [DOp.union 0 1, DOp.find 2, DOp.union 1 2]) ∧
    (runOps 3 [DOp.union 0 1, DOp.find 2, DOp.union 1 2]).parent.length =
      3 ∧
    ((runOps 3 [DOp.union 0 1, DOp.find 2, DOp.union 1 2]).find 2).2 =
      rootOf (runOps 3 [DOp.union 0 1, DOp.find 2,
        DOp.union 1 2]).parent 2 := by
  have h := C10_dsu_invariant 3 [DOp.union 0 1, DOp.find 2, DOp.union 1 2]
    (by decide)
  exact ⟨h.1, h.2.1, (h.2.2 2 (by decide)).1⟩
